import Mathlib

/-!
Verification of the directory analyzer (`analyzeDir.cpp`).

The development shallowly embeds the program over a model of a filesystem
tree.  A directory's contents are an `EntryList`; an `Entry` is a regular
file (with the data the program can observe about it: the result of the
second `stat` call, its byte content, and the outcome of the external
`identify` probe), a subdirectory, or an entry that is neither a regular
file nor a directory (symlinks, sockets, ...), which the walker skips.

The C++ global `std::unordered_map`s are modelled as association lists
threaded through the traversal; their unspecified iteration order is
modelled by the list order, which is harmless because every list derived
from them is sorted with a total comparator before it reaches the result.
Fatal errors (`print_error`, which terminates the process) are modelled
with `Except.error`.
-/

-- ==================== association-list model of std::unordered_map ====================

/-- Lookup in an association list (`unordered_map::find`). -/
def aget {α : Type} (m : List (String × α)) (k : String) : Option α :=
  match m with
  | [] => none
  | (k2, v) :: rest => if k2 = k then some v else aget rest k

/-- Lookup with a default value (reading `unordered_map::operator[]`). -/
def agetD {α : Type} (m : List (String × α)) (k : String) (d : α) : α :=
  (aget m k).getD d

/-- Insert-or-update (writing through `unordered_map::operator[]`). -/
def aset {α : Type} (m : List (String × α)) (k : String) (v : α) : List (String × α) :=
  match m with
  | [] => [(k, v)]
  | (k2, v2) :: rest => if k2 = k then (k, v) :: rest else (k2, v2) :: aset rest k v

/-- Model of `m[k] += c` on an `unordered_map<string,int>` (value-initialized to 0). -/
def abump (m : List (String × Nat)) (k : String) (c : Nat) : List (String × Nat) :=
  aset m k (agetD m k 0 + c)

/-- Keys of an association list. -/
def akeys {α : Type} (m : List (String × α)) : List String := m.map Prod.fst

instance {ε α : Type} [DecidableEq ε] [DecidableEq α] : DecidableEq (Except ε α) := fun x y =>
  match x, y with
  | .error a, .error b =>
      if h : a = b then .isTrue (by rw [h]) else .isFalse (fun c => by cases c; exact h rfl)
  | .error _, .ok _ => .isFalse (fun c => by cases c)
  | .ok _, .error _ => .isFalse (fun c => by cases c)
  | .ok a, .ok b =>
      if h : a = b then .isTrue (by rw [h]) else .isFalse (fun c => by cases c; exact h rfl)

-- ==================== character and string helpers ====================

/-- Model of C `tolower` in the default locale: byte values 65..90 are shifted to 97..122. -/
def toLowerCh (c : Char) : Char :=
  if 65 ≤ c.toNat ∧ c.toNat ≤ 90 then Char.ofNat (c.toNat + 32) else c

/-- Model of C `isalpha` in the default locale. -/
def isAlphaCh (c : Char) : Bool :=
  decide ((97 ≤ c.toNat ∧ c.toNat ≤ 122) ∨ (65 ≤ c.toNat ∧ c.toNat ≤ 90))

/-- Embedding of `lowercase` (`std::transform` with `::tolower`). -/
def lowercaseStr (s : String) : String := ⟨s.data.map toLowerCh⟩

/-- Embedding of `ends_with` (suffix comparison via `std::string::compare`). -/
def ends_with (str sfx : String) : Bool := sfx.data.isSuffixOf str.data

/-- Embedding of `clean_path`: strip one leading "./". -/
def clean_path (p : String) : String :=
  if p.data.take 2 = ['.', '/'] then ⟨p.data.drop 2⟩ else p

/-- Byte-lexicographic strict comparison, the model of `operator<` on `std::string`
(the model compares scalar values, which agrees with byte order on ASCII data). -/
def strLtB : List Char → List Char → Bool
  | [], [] => false
  | [], _ :: _ => true
  | _ :: _, [] => false
  | a :: as, b :: bs =>
      if a.toNat < b.toNat then true
      else if b.toNat < a.toNat then false
      else strLtB as bs

/-- Non-strict string comparison derived from `strLtB`; `std::sort` with `operator<`
produces a list sorted with respect to this relation. -/
def strLeP (a b : String) : Prop := strLtB b.data a.data = false

instance : DecidableRel strLeP := fun a b => instDecidableEqBool (strLtB b.data a.data) false

/-- Path concatenation `dir_path + PATH_SEPARATOR + entry_name`. -/
def pathJoin (dp name : String) : String := dp ++ "/" ++ name

/-- Test for the `.` and `..` pseudo-entries, which the walker skips. -/
def skipName (s : String) : Bool := s = "." ∨ s = ".."

-- ==================== data model ====================

/-- Mirror of the `ImageInfo` struct of `analyzeDir.h`. -/
structure ImageInfo where
  path : String
  width : Int
  height : Int
deriving Repr, DecidableEq

/-- Observable outcome of running `identify` on one file: whether `popen`
itself succeeded, the two `long` values extracted from the first output line
(`none` when `fgets` returned no line; a failed `istringstream` extraction
writes 0, which the environment supplies directly), and the `pclose` status. -/
structure ProbeOutcome where
  popenOk : Bool
  parsed : Option (Int × Int)
  status : Int
deriving Repr, DecidableEq

/-- Data the program can observe about one regular file: its name, the result
of the `stat` call in the statistics block (`none` = that call failed), its
byte content (as read by `fgetc`), and the probe outcome. -/
structure FileData where
  name : String
  fstat : Option Nat
  content : List Char
  probe : ProbeOutcome
deriving Repr, DecidableEq

mutual
/-- One directory entry: a regular file, a subdirectory, or anything else
(skipped by the walker, like symlinks or sockets). -/
inductive Entry where
  | file : FileData → Entry
  | dir : String → EntryList → Entry
  | other : String → Entry
/-- Contents of a directory in the (unspecified) order `readdir` yields them. -/
inductive EntryList where
  | nil : EntryList
  | cons : Entry → EntryList → EntryList
end

/-- Conversion helper for writing concrete trees. -/
def entriesOf : List Entry → EntryList
  | [] => .nil
  | e :: r => .cons e (entriesOf r)

/-- Mirror of the `DirStats` struct. -/
structure DirStats where
  largest_file_path : String
  largest_file_size : Int
  n_files : Nat
  n_dirs : Nat
  all_files_size : Nat
  largest_images : List ImageInfo
deriving Repr, DecidableEq

/-- Initial `DirStats` value: `NO_PATH`, `DEFAULT_LARGEST_SIZE = -1`, and
`n_dirs = 1` so each call counts its own directory. -/
def initialDirStats : DirStats :=
  { largest_file_path := ""
    largest_file_size := -1
    n_files := 0
    n_dirs := 1
    all_files_size := 0
    largest_images := [] }

/-- The three process-wide hash tables. -/
structure Globals where
  parent_map : List (String × String)
  n_files_map : List (String × Nat)
  most_common_words_map : List (String × Nat)
deriving Repr, DecidableEq

/-- Empty global state at program start. -/
def initialGlobals : Globals :=
  { parent_map := [], n_files_map := [], most_common_words_map := [] }

/-- Mirror of the `Results` struct of `analyzeDir.h`. -/
structure Results where
  largest_file_path : String
  largest_file_size : Int
  n_files : Nat
  n_dirs : Nat
  all_files_size : Nat
  most_common_words : List (String × Nat)
  largest_images : List ImageInfo
  vacant_dirs : List String
deriving Repr, DecidableEq

-- ==================== embedding of the program ====================

/-- Embedding of `get_image_info`.  A `popen` failure reaches `print_error`,
which terminates the process; that is the `Except.error` case.  Otherwise the
parsed width and height (defaulting to 0 when no line was read) are accepted
only when the exit status is 0 and both are positive. -/
def get_image_info (file_path : String) (p : ProbeOutcome) : Except String (Option ImageInfo) :=
  if p.popenOk = false then
    .error ("could not call identify via popen on %s" ++ file_path)
  else
    let w := (p.parsed.getD (0, 0)).1
    let h := (p.parsed.getD (0, 0)).2
    if p.status = 0 ∧ 0 < w ∧ 0 < h then
      .ok (some { path := clean_path file_path, width := w, height := h })
    else
      .ok none

/-- Loop of `count_words_in_file`: lower-case each byte, extend the word
buffer on alphabetic bytes, and on any other byte flush the buffer into the
table when it has at least `MIN_WORD_SIZE = 5` characters.  The final flush
handles a file that ends inside a word. -/
def cwGo (buf : List Char) (m : List (String × Nat)) : List Char → List (String × Nat)
  | [] => if 5 ≤ buf.length then abump m ⟨buf⟩ 1 else m
  | c :: rest =>
      let c2 := toLowerCh c
      if isAlphaCh c2 then cwGo (buf ++ [c2]) m rest
      else cwGo [] (if 5 ≤ buf.length then abump m ⟨buf⟩ 1 else m) rest

/-- Embedding of `count_words_in_file`, acting on the global word table. -/
def count_words_in_file (content : List Char) (m : List (String × Nat)) : List (String × Nat) :=
  cwGo [] m content

/-- Processing of one regular file inside `get_dir_stats`: bump the file
counters, then (when the `stat` call succeeds) update the largest-file fields
on strict excess and add the size, then count words when the lower-cased path
ends in ".txt", then probe the file as an image. -/
def processFile (dp : String) (ds : DirStats) (g : Globals) (f : FileData) :
    Except String (DirStats × Globals) :=
  let fp := pathJoin dp f.name
  let ds := { ds with n_files := ds.n_files + 1 }
  let g := { g with n_files_map := abump g.n_files_map dp 1 }
  let ds :=
    match f.fstat with
    | some sz =>
        let ds :=
          if (sz : Int) > ds.largest_file_size then
            { ds with largest_file_path := clean_path fp, largest_file_size := (sz : Int) }
          else ds
        { ds with all_files_size := ds.all_files_size + sz }
    | none => ds
  let g :=
    if ends_with (lowercaseStr fp) ".txt" then
      { g with most_common_words_map := count_words_in_file f.content g.most_common_words_map }
    else g
  match get_image_info fp f.probe with
  | .error e => .error e
  | .ok none => .ok (ds, g)
  | .ok (some info) => .ok ({ ds with largest_images := ds.largest_images ++ [info] }, g)

mutual
/-- Effect of one loop iteration of `get_dir_stats` on the accumulated
`DirStats` and the globals: skip `.`/`..` and non-file non-dir entries,
process files, and recurse into subdirectories, merging the child statistics
exactly as lines 330-347 of `analyzeDir.cpp` do. -/
def walkEntry (dp : String) (ds : DirStats) (g : Globals) : Entry → Except String (DirStats × Globals)
  | .file f =>
      if skipName f.name then .ok (ds, g)
      else processFile dp ds g f
  | .other _ => .ok (ds, g)
  | .dir name es =>
      if skipName name then .ok (ds, g)
      else
        let child := pathJoin dp name
        let g1 : Globals :=
          { g with parent_map := aset g.parent_map child dp
                   n_files_map := aset g.n_files_map child 0 }
        match walkList child initialDirStats g1 es with
        | .error e => .error e
        | .ok (sub, g2) =>
            let ds :=
              if sub.largest_file_size > ds.largest_file_size then
                { ds with largest_file_path := clean_path sub.largest_file_path
                          largest_file_size := sub.largest_file_size }
              else ds
            let ds := { ds with n_files := ds.n_files + sub.n_files }
            let g3 := { g2 with n_files_map := abump g2.n_files_map dp sub.n_files }
            let ds :=
              { ds with n_dirs := ds.n_dirs + sub.n_dirs
                        all_files_size := ds.all_files_size + sub.all_files_size
                        largest_images := ds.largest_images ++ sub.largest_images }
            .ok (ds, g3)
/-- The `readdir` loop of `get_dir_stats` over the remaining entries. -/
def walkList (dp : String) (ds : DirStats) (g : Globals) : EntryList → Except String (DirStats × Globals)
  | .nil => .ok (ds, g)
  | .cons e rest =>
      match walkEntry dp ds g e with
      | .error msg => .error msg
      | .ok (ds2, g2) => walkList dp ds2 g2 rest
end

/-- Embedding of `get_dir_stats`: record the parent link and zero the
per-directory file count, then run the entry loop starting from the initial
`DirStats`. -/
def get_dir_stats (dp pp : String) (es : EntryList) (g : Globals) :
    Except String (DirStats × Globals) :=
  walkList dp initialDirStats
    { g with parent_map := aset g.parent_map dp pp
             n_files_map := aset g.n_files_map dp 0 } es

/-- Embedding of `get_top_level_vacant_dirs`: seed the sentinel entry
`n_files_map[""] = 1`, report every recorded directory whose own count is 0
while its parent's recorded count is positive, and sort. -/
def get_top_level_vacant_dirs (pm : List (String × String)) (nfm : List (String × Nat)) :
    List String :=
  let m := aset nfm "" 1
  let picked := m.filter fun kv => decide (kv.2 = 0) && decide (0 < agetD m (agetD pm kv.1 "") 0)
  (picked.map fun kv => clean_path kv.1).insertionSort strLeP

/-- Comparator `WordFrequencyComparator` turned into the non-strict relation
that `std::sort` establishes: larger count first, ties broken by ascending
word. -/
def wordLE (a b : String × Nat) : Prop := b.2 < a.2 ∨ (a.2 = b.2 ∧ strLeP a.1 b.1)

instance : DecidableRel wordLE := fun a b => by unfold wordLE; infer_instance

/-- Pixel count of an image, the ranking key of `ImageInfoComparator`. -/
def pixels (i : ImageInfo) : Int := i.width * i.height

/-- Comparator `ImageInfoComparator` turned into the non-strict relation that
`std::sort` establishes: more pixels first, ties broken by ascending path. -/
def imageLE (a b : ImageInfo) : Prop := pixels b < pixels a ∨ (pixels a = pixels b ∧ strLeP a.path b.path)

instance : DecidableRel imageLE := fun a b => by unfold imageLE; infer_instance

/-- Embedding of `analyzeDir n` run on a tree `t` (the contents of the
current working directory `.`) with fresh globals: one walk rooted at `.`
with parent `NO_PATH`, then assembly of the `Results` struct.  The C++
`std::sort` calls are modelled with `insertionSort`; since both comparators
are total and antisymmetric on the data they sort (word keys are unique, as
are image paths on well-formed trees), the sorted list is the unique sorted
permutation, so the model loses no information.  `resize(min(size, n))` is
`take n`. -/
def analyzeDir (t : EntryList) (n : Nat) : Except String Results :=
  match get_dir_stats "." "" t initialGlobals with
  | .error e => .error e
  | .ok (ds, g) =>
      .ok
        { largest_file_path := ds.largest_file_path
          largest_file_size := ds.largest_file_size
          n_files := ds.n_files
          n_dirs := ds.n_dirs
          all_files_size := ds.all_files_size
          most_common_words := (g.most_common_words_map.insertionSort wordLE).take n
          largest_images := (ds.largest_images.insertionSort imageLE).take n
          vacant_dirs := get_top_level_vacant_dirs g.parent_map g.n_files_map }

-- ==================== sanity checks of the embedding ====================

/-- Probe outcome of a file that `identify` rejects. -/
def probeFail : ProbeOutcome := { popenOk := true, parsed := none, status := 1 }

/-- The tree of the end-to-end scenario: `a.txt` containing
"hello hello world" and an empty subdirectory `empty/`. -/
def sampleTree : EntryList :=
  entriesOf
    [ .file { name := "a.txt", fstat := some 17,
              content := "hello hello world".data, probe := probeFail }
    , .dir "empty" .nil ]

example : analyzeDir sampleTree 1 =
    .ok
      { largest_file_path := "a.txt"
        largest_file_size := 17
        n_files := 1
        n_dirs := 2
        all_files_size := 17
        most_common_words := [("hello", 2)]
        largest_images := []
        vacant_dirs := ["empty"] } := by decide

example : analyzeDir sampleTree 2 =
    .ok
      { largest_file_path := "a.txt"
        largest_file_size := 17
        n_files := 1
        n_dirs := 2
        all_files_size := 17
        most_common_words := [("hello", 2), ("world", 1)]
        largest_images := []
        vacant_dirs := ["empty"] } := by decide

-- ==================== specification-side functions over the tree ====================

mutual
/-- Number of regular files an entry contributes to the recursive file count. -/
def nFilesE : Entry → Nat
  | .file f => if skipName f.name then 0 else 1
  | .dir n es => if skipName n then 0 else nFilesL es
  | .other _ => 0
/-- Recursive count of regular files in a directory's contents. -/
def nFilesL : EntryList → Nat
  | .nil => 0
  | .cons e rest => nFilesE e + nFilesL rest
end

mutual
/-- Number of directories an entry contributes (itself plus its subtree). -/
def nDirsE : Entry → Nat
  | .file _ => 0
  | .dir n es => if skipName n then 0 else 1 + nDirsL es
  | .other _ => 0
/-- Number of directories transitively contained in a directory's contents. -/
def nDirsL : EntryList → Nat
  | .nil => 0
  | .cons e rest => nDirsE e + nDirsL rest
end

mutual
/-- Total byte size an entry contributes: only files whose `stat` succeeded count. -/
def sumSizesE : Entry → Nat
  | .file f => if skipName f.name then 0 else (f.fstat.getD 0)
  | .dir n es => if skipName n then 0 else sumSizesL es
  | .other _ => 0
/-- Sum of the sizes of all regular files in the subtree whose `stat` succeeded. -/
def sumSizesL : EntryList → Nat
  | .nil => 0
  | .cons e rest => sumSizesE e + sumSizesL rest
end

mutual
/-- The (cleaned path, size) pairs of the statted regular files contributed by one
entry, in traversal order. -/
def stattedE (dp : String) : Entry → List (String × Nat)
  | .file f =>
      if skipName f.name then []
      else
        match f.fstat with
        | some sz => [(clean_path (pathJoin dp f.name), sz)]
        | none => []
  | .dir n es => if skipName n then [] else stattedL (pathJoin dp n) es
  | .other _ => []
/-- The (cleaned path, size) pairs of all statted regular files in traversal order. -/
def stattedL (dp : String) : EntryList → List (String × Nat)
  | .nil => []
  | .cons e rest => stattedE dp e ++ stattedL dp rest
end

/-- Pure description of a successful probe: the accepted `ImageInfo` when the
status is 0 and both parsed dimensions are positive, and `none` otherwise. -/
def probeResult (fp : String) (p : ProbeOutcome) : Option ImageInfo :=
  let w := (p.parsed.getD (0, 0)).1
  let h := (p.parsed.getD (0, 0)).2
  if p.status = 0 ∧ 0 < w ∧ 0 < h then
    some { path := clean_path fp, width := w, height := h }
  else none

mutual
/-- Images contributed by one entry in traversal order. -/
def imagesE (dp : String) : Entry → List ImageInfo
  | .file f => if skipName f.name then [] else (probeResult (pathJoin dp f.name) f.probe).toList
  | .dir n es => if skipName n then [] else imagesL (pathJoin dp n) es
  | .other _ => []
/-- Images of all files in the subtree in traversal order. -/
def imagesL (dp : String) : EntryList → List ImageInfo
  | .nil => []
  | .cons e rest => imagesE dp e ++ imagesL dp rest
end

mutual
/-- Contents of the `.txt` files (lower-cased full path ends in ".txt")
contributed by one entry, in traversal order. -/
def wordTextsE (dp : String) : Entry → List (List Char)
  | .file f =>
      if skipName f.name then []
      else if ends_with (lowercaseStr (pathJoin dp f.name)) ".txt" then [f.content] else []
  | .dir n es => if skipName n then [] else wordTextsL (pathJoin dp n) es
  | .other _ => []
/-- Contents of all `.txt` files in the subtree in traversal order. -/
def wordTextsL (dp : String) : EntryList → List (List Char)
  | .nil => []
  | .cons e rest => wordTextsE dp e ++ wordTextsL dp rest
end

mutual
/-- The (path, parent path, contents) records of the subdirectories an entry
contributes, in the order the walker first enters them. -/
def subdirsE (dp : String) : Entry → List (String × String × EntryList)
  | .file _ => []
  | .dir n es =>
      if skipName n then []
      else (pathJoin dp n, dp, es) :: subdirsL (pathJoin dp n) es
  | .other _ => []
/-- The records of all subdirectories of the subtree in traversal order. -/
def subdirsL (dp : String) : EntryList → List (String × String × EntryList)
  | .nil => []
  | .cons e rest => subdirsE dp e ++ subdirsL dp rest
end

/-- Paths of all subdirectories of the subtree. -/
def subPaths (dp : String) (l : EntryList) : List String := (subdirsL dp l).map Prod.fst

/-- Every directory the walker visits when rooted at `.`: the root itself
(whose parent is the `NO_PATH` sentinel) followed by all subdirectories. -/
def allDirs (t : EntryList) : List (String × String × EntryList) :=
  (".", "", t) :: subdirsL "." t

mutual
/-- True when no non-skipped file of the entry has a failing `popen`. -/
def probesOkE : Entry → Bool
  | .file f => if skipName f.name then true else f.probe.popenOk
  | .dir n es => if skipName n then true else probesOkL es
  | .other _ => true
/-- True when no file in the subtree makes `popen` fail (so the walk
never reaches `print_error`). -/
def probesOkL : EntryList → Bool
  | .nil => true
  | .cons e rest => probesOkE e && probesOkL rest
end

/-- Maximal runs of alphabetic characters (lower-cased) of a byte stream,
accumulated with the in-progress buffer `buf`. -/
def runsGo (buf : List Char) : List Char → List (List Char)
  | [] => if buf = [] then [] else [buf]
  | c :: rest =>
      let c2 := toLowerCh c
      if isAlphaCh c2 then runsGo (buf ++ [c2]) rest
      else if buf = [] then runsGo [] rest else buf :: runsGo [] rest

/-- Maximal runs of alphabetic characters of a byte stream, lower-cased. -/
def runsOf (l : List Char) : List (List Char) := runsGo [] l

/-- The words of a text: maximal lower-cased alphabetic runs of length at
least `MIN_WORD_SIZE = 5`, with multiplicity, in order of occurrence. -/
def wordsOfContent (content : List Char) : List String :=
  ((runsOf content).filter fun r => 5 ≤ r.length).map fun r => (⟨r⟩ : String)

/-- Number of occurrences of the word `w` contributed by the `.txt` files of
the subtree. -/
def wContribL (dp : String) (l : EntryList) (w : String) : Nat :=
  ((wordTextsL dp l).map fun c => (wordsOfContent c).count w).sum

/-- Same for a single entry. -/
def wContribE (dp : String) (e : Entry) (w : String) : Nat :=
  ((wordTextsE dp e).map fun c => (wordsOfContent c).count w).sum

/-- Fold describing how the walker keeps the largest file seen so far: a
candidate replaces the current champion only when its size strictly exceeds
the champion's, so among equal sizes the first-seen candidate wins. -/
def firstMax : List (String × Nat) → (String × Int) → (String × Int)
  | [], cur => cur
  | (p, s) :: rest, cur => firstMax rest (if (s : Int) > cur.2 then (p, (s : Int)) else cur)

/-- Well-behaved word table: keys are unique and every recorded count is positive. -/
def GoodMap (m : List (String × Nat)) : Prop :=
  (akeys m).Nodup ∧ ∀ kv ∈ m, 0 < kv.2

/-- Well-formedness of a tree as a model of an actual directory: distinct
directories have distinct paths (true on a real filesystem since siblings
have distinct names and names contain no `/`), the root path and the empty
sentinel path do not collide with any subdirectory path, cleaned directory
paths are still distinct, cleaning a statted file path is idempotent, and
distinct files keep distinct cleaned paths.  All conditions are decidable
and hold for actual directory trees. -/
def WfFS (t : EntryList) : Prop :=
  (subPaths "." t).Nodup ∧
  "." ∉ subPaths "." t ∧
  "" ∉ subPaths "." t ∧
  ((("." : String) :: subPaths "." t).map clean_path).Nodup ∧
  (∀ ps ∈ stattedL "." t, clean_path ps.1 = ps.1) ∧
  ((imagesL "." t).map ImageInfo.path).Nodup

instance (t : EntryList) : Decidable (WfFS t) := by unfold WfFS; infer_instance

/-- No two statted files in the tree have the same size (the tie-free
condition under which the largest-file choice is order-independent). -/
def SizesNodup (t : EntryList) : Prop := ((stattedL "." t).map Prod.snd).Nodup

instance (t : EntryList) : Decidable (SizesNodup t) := by unfold SizesNodup; infer_instance

/-- Reordering relation on directory contents: `TPerm l1 l2` holds when `l2`
arises from `l1` by permuting the entries of directories (at any depth)
without changing any entry's data, i.e. the same filesystem enumerated by a
`readdir` that yields another order. -/
inductive TPerm : EntryList → EntryList → Prop where
  | nil : TPerm .nil .nil
  | cons (e : Entry) {l1 l2 : EntryList} : TPerm l1 l2 → TPerm (.cons e l1) (.cons e l2)
  | dirStep (n : String) {es1 es2 l1 l2 : EntryList} :
      TPerm es1 es2 → TPerm l1 l2 → TPerm (.cons (.dir n es1) l1) (.cons (.dir n es2) l2)
  | swap (e1 e2 : Entry) (l : EntryList) : TPerm (.cons e1 (.cons e2 l)) (.cons e2 (.cons e1 l))
  | trans {l1 l2 l3 : EntryList} : TPerm l1 l2 → TPerm l2 l3 → TPerm l1 l3

-- ==================== order lemmas for the comparators ====================

theorem charToNat_inj {a b : Char} (h : a.toNat = b.toNat) : a = b := by
  apply Char.ext
  apply UInt32.ext
  simpa [Char.toNat] using h

theorem string_ext {a b : String} (h : a.data = b.data) : a = b := by
  cases a; cases b; exact congrArg String.mk h

theorem strLtB_asymm : ∀ as bs, strLtB as bs = true → strLtB bs as = false
  | [], [] => by simp [strLtB]
  | [], _ :: _ => by simp [strLtB]
  | _ :: _, [] => by simp [strLtB]
  | a :: as, b :: bs => by
      simp only [strLtB]
      split_ifs with h1 h2 h3 h4 h5 h6 <;> try omega
      all_goals simp_all
      exact strLtB_asymm as bs

theorem strLtB_trichotomy : ∀ as bs, strLtB as bs = true ∨ as = bs ∨ strLtB bs as = true
  | [], [] => .inr (.inl rfl)
  | [], _ :: _ => .inl (by simp [strLtB])
  | _ :: _, [] => .inr (.inr (by simp [strLtB]))
  | a :: as, b :: bs => by
      rcases Nat.lt_trichotomy a.toNat b.toNat with h | h | h
      · exact .inl (by simp [strLtB, h])
      · have hab : a = b := charToNat_inj h
        subst hab
        rcases strLtB_trichotomy as bs with h2 | h2 | h2
        · exact .inl (by simp [strLtB, h2])
        · exact .inr (.inl (by rw [h2]))
        · exact .inr (.inr (by simp [strLtB, h2]))
      · exact .inr (.inr (by simp [strLtB, h]))

theorem strLtB_trans : ∀ as bs cs, strLtB as bs = true → strLtB bs cs = true → strLtB as cs = true
  | _, [], [] => by simp [strLtB]
  | _, _ :: _, [] => by simp [strLtB]
  | [], _, _ :: _ => by simp [strLtB]
  | a :: as, [], _ :: _ => by simp [strLtB]
  | a :: as, b :: bs, c :: cs => by
      simp only [strLtB]
      split_ifs with h1 h2 h3 h4 h5 h6 h7 h8 <;> try omega
      all_goals simp_all
      exact strLtB_trans as bs cs

theorem strLtB_irrefl : ∀ as, strLtB as as = false
  | [] => rfl
  | a :: as => by simp [strLtB, strLtB_irrefl as]

instance : IsTotal String strLeP :=
  ⟨fun a b => by
    unfold strLeP
    rcases strLtB_trichotomy a.data b.data with h | h | h
    · exact .inl (strLtB_asymm _ _ h)
    · exact .inl (by rw [h]; exact strLtB_irrefl _)
    · exact .inr (strLtB_asymm _ _ h)⟩

instance : IsTrans String strLeP :=
  ⟨fun a b c hab hbc => by
    unfold strLeP at *
    by_contra h
    have h2 : strLtB c.data a.data = true := by
      cases h3 : strLtB c.data a.data
      · exact absurd h3 h
      · rfl
    rcases strLtB_trichotomy a.data b.data with h4 | h4 | h4
    · have := strLtB_trans c.data a.data b.data h2 h4
      rw [this] at hbc; cases hbc
    · rw [h4] at h2; rw [h2] at hbc; cases hbc
    · rw [h4] at hab; cases hab⟩

instance : IsAntisymm String strLeP :=
  ⟨fun a b hab hba => by
    unfold strLeP at *
    rcases strLtB_trichotomy a.data b.data with h | h | h
    · rw [h] at hba; cases hba
    · exact string_ext h
    · rw [h] at hab; cases hab⟩

theorem strLeP_total (a b : String) : strLeP a b ∨ strLeP b a := IsTotal.total a b

instance : IsTotal (String × Nat) wordLE :=
  ⟨fun a b => by
    unfold wordLE
    rcases Nat.lt_trichotomy a.2 b.2 with h | h | h
    · exact .inr (.inl h)
    · rcases strLeP_total a.1 b.1 with h2 | h2
      · exact .inl (.inr ⟨h, h2⟩)
      · exact .inr (.inr ⟨h.symm, h2⟩)
    · exact .inl (.inl h)⟩

instance : IsTrans (String × Nat) wordLE :=
  ⟨fun a b c hab hbc => by
    unfold wordLE at *
    rcases hab with h1 | ⟨h1, h1s⟩ <;> rcases hbc with h2 | ⟨h2, h2s⟩
    · exact .inl (by omega)
    · exact .inl (by omega)
    · exact .inl (by omega)
    · exact .inr ⟨by omega, Trans.trans h1s h2s⟩⟩

instance : IsAntisymm (String × Nat) wordLE :=
  ⟨fun a b hab hba => by
    unfold wordLE at *
    rcases hab with h1 | ⟨h1, h1s⟩ <;> rcases hba with h2 | ⟨h2, h2s⟩ <;> try omega
    have : a.1 = b.1 := IsAntisymm.antisymm a.1 b.1 h1s h2s
    exact Prod.ext this (by omega)⟩

instance : IsTotal ImageInfo imageLE :=
  ⟨fun a b => by
    unfold imageLE
    rcases lt_trichotomy (pixels a) (pixels b) with h | h | h
    · exact .inr (.inl h)
    · rcases strLeP_total a.path b.path with h2 | h2
      · exact .inl (.inr ⟨h, h2⟩)
      · exact .inr (.inr ⟨h.symm, h2⟩)
    · exact .inl (.inl h)⟩

instance : IsTrans ImageInfo imageLE :=
  ⟨fun a b c hab hbc => by
    unfold imageLE at *
    rcases hab with h1 | ⟨h1, h1s⟩ <;> rcases hbc with h2 | ⟨h2, h2s⟩
    · exact .inl (by omega)
    · exact .inl (by omega)
    · exact .inl (by omega)
    · exact .inr ⟨by omega, Trans.trans h1s h2s⟩⟩

/-- Two sorted lists that are permutations of each other coincide, provided
the order is antisymmetric on the elements that actually occur. -/
theorem sorted_perm_eq {α : Type} {r : α → α → Prop} :
    ∀ {l1 l2 : List α}, l1.Perm l2 → l1.Sorted r → l2.Sorted r →
      (∀ a ∈ l1, ∀ b ∈ l1, r a b → r b a → a = b) → l1 = l2
  | [], l2, hp, _, _, _ => by simpa using hp.nil_eq
  | a :: t1, l2, hp, hs1, hs2, ha => by
      cases l2 with
      | nil => exact absurd hp.symm (by simp)
      | cons b t2 =>
          have hab : a = b := by
            have hbmem : b ∈ a :: t1 := hp.mem_iff.mpr (by simp)
            have hamem : a ∈ b :: t2 := hp.mem_iff.mp (by simp)
            rcases List.mem_cons.mp hbmem with h | h
            · exact h.symm
            rcases List.mem_cons.mp hamem with h2 | h2
            · exact h2
            have hrab : r a b := List.rel_of_sorted_cons hs1 b h
            have hrba : r b a := List.rel_of_sorted_cons hs2 a h2
            exact ha a (by simp) b hbmem hrab hrba
          subst hab
          have hpt : t1.Perm t2 := hp.cons_inv
          have : t1 = t2 :=
            sorted_perm_eq hpt hs1.of_cons hs2.of_cons
              (fun x hx y hy => ha x (by simp [hx]) y (by simp [hy]))
          rw [this]

-- ==================== association-list lemmas ====================

theorem aget_append_some {α : Type} {m1 m2 : List (String × α)} {k : String} {v : α}
    (h : aget m1 k = some v) : aget (m1 ++ m2) k = some v := by
  induction m1 with
  | nil => simp [aget] at h
  | cons kv rest ih =>
      simp only [aget, List.cons_append] at *
      split_ifs at h ⊢ with h2
      · exact h
      · exact ih h

theorem aget_append_none {α : Type} {m1 : List (String × α)} {k : String}
    (h : aget m1 k = none) (m2 : List (String × α)) : aget (m1 ++ m2) k = aget m2 k := by
  induction m1 with
  | nil => simp
  | cons kv rest ih =>
      simp only [aget, List.cons_append] at h ⊢
      by_cases h2 : kv.1 = k
      · rw [if_pos h2] at h; cases h
      · rw [if_neg h2] at h ⊢; exact ih h

theorem aget_aset_self {α : Type} (m : List (String × α)) (k : String) (v : α) :
    aget (aset m k v) k = some v := by
  induction m with
  | nil => simp [aget, aset]
  | cons kv rest ih =>
      simp only [aset]
      split_ifs with h
      · simp [aget]
      · simp only [aget]
        rw [if_neg h]
        exact ih

theorem aget_aset_ne {α : Type} (m : List (String × α)) (k : String) (v : α) {k2 : String}
    (h : k ≠ k2) : aget (aset m k v) k2 = aget m k2 := by
  induction m with
  | nil => simp [aget, aset, h]
  | cons kv rest ih =>
      simp only [aset]
      split_ifs with h2
      · simp only [aget]
        rw [if_neg h, if_neg (fun hh => h (by rw [← h2]; exact hh))]
      · simp only [aget, ih]

theorem aset_fresh {α : Type} {m : List (String × α)} {k : String} (v : α)
    (h : aget m k = none) : aset m k v = m ++ [(k, v)] := by
  induction m with
  | nil => simp [aset]
  | cons kv rest ih =>
      simp only [aget] at h
      by_cases h2 : kv.1 = k
      · rw [if_pos h2] at h; cases h
      · rw [if_neg h2] at h
        simp only [aset, h2, if_false, List.cons_append, List.cons_inj_right]
        exact ih h

theorem aset_append_left {α : Type} {m1 : List (String × α)} {k : String}
    (h : (aget m1 k).isSome) (m2 : List (String × α)) (v : α) :
    aset (m1 ++ m2) k v = aset m1 k v ++ m2 := by
  induction m1 with
  | nil => simp [aget] at h
  | cons kv rest ih =>
      simp only [aget] at h
      simp only [aset, List.cons_append]
      split_ifs at h ⊢ with h2
      · rfl
      · simp only [List.cons_append, List.cons_inj_right]
        exact ih h

theorem aset_aset {α : Type} (m : List (String × α)) (k : String) (v w : α) :
    aset (aset m k v) k w = aset m k w := by
  induction m with
  | nil => simp [aset]
  | cons kv rest ih =>
      simp only [aset]
      split_ifs with h
      · simp [aset, h]
      · simp only [aset, h, if_false, List.cons_inj_right]
        exact ih

theorem aset_agetD_self {α : Type} {m : List (String × α)} {k : String} {v : α}
    (h : aget m k = some v) : aset m k v = m := by
  induction m with
  | nil => cases h
  | cons kv rest ih =>
      simp only [aget] at h
      simp only [aset]
      by_cases h2 : kv.1 = k
      · rw [if_pos h2] at h
        rw [if_pos h2]
        injection h with h3
        rw [← h2, ← h3]
      · rw [if_neg h2] at h
        rw [if_neg h2]
        simp only [List.cons_inj_right]
        exact ih h

theorem aget_eq_none_iff {α : Type} {m : List (String × α)} {k : String} :
    aget m k = none ↔ k ∉ akeys m := by
  induction m with
  | nil => simp [aget, akeys]
  | cons kv rest ih =>
      simp only [aget, akeys, List.map_cons, List.mem_cons]
      split_ifs with h
      · simp [h]
      · simp only [ih, akeys]
        constructor
        · intro h2 h3
          rcases h3 with h3 | h3
          · exact h (h3.symm)
          · exact h2 h3
        · intro h2 h3
          exact h2 (.inr h3)

theorem aget_isSome_iff {α : Type} {m : List (String × α)} {k : String} :
    (aget m k).isSome = true ↔ k ∈ akeys m := by
  constructor
  · intro h1
    by_contra h2
    rw [aget_eq_none_iff.mpr h2] at h1
    cases h1
  · intro h1
    cases h3 : aget m k with
    | none => exact absurd (aget_eq_none_iff.mp h3) (fun hh => hh h1)
    | some v => rfl

theorem aget_some_mem {α : Type} {m : List (String × α)} {k : String} {v : α}
    (h : aget m k = some v) : (k, v) ∈ m := by
  induction m with
  | nil => cases h
  | cons kv rest ih =>
      simp only [aget] at h
      by_cases h2 : kv.1 = k
      · rw [if_pos h2] at h
        injection h with h3
        rw [← h2, ← h3]
        exact List.mem_cons_self _ _
      · rw [if_neg h2] at h
        exact List.mem_cons_of_mem _ (ih h)

theorem mem_aset {α : Type} {m : List (String × α)} {k : String} {v : α} :
    ∀ kv ∈ aset m k v, kv = (k, v) ∨ kv ∈ m := by
  induction m with
  | nil => simp [aset]
  | cons kv0 rest ih =>
      simp only [aset]
      split_ifs with h
      · intro kv hkv
        rcases List.mem_cons.mp hkv with h2 | h2
        · exact .inl h2
        · exact .inr (List.mem_cons_of_mem _ h2)
      · intro kv hkv
        rcases List.mem_cons.mp hkv with h2 | h2
        · exact .inr (by rw [h2]; exact List.mem_cons_self _ _)
        · rcases ih kv h2 with h3 | h3
          · exact .inl h3
          · exact .inr (List.mem_cons_of_mem _ h3)

theorem akeys_aset_mem {α : Type} {m : List (String × α)} {k : String}
    (h : k ∈ akeys m) (v : α) : akeys (aset m k v) = akeys m := by
  induction m with
  | nil => simp [akeys] at h
  | cons kv rest ih =>
      simp only [akeys, List.map_cons, List.mem_cons] at h
      simp only [aset]
      split_ifs with h2
      · simp [akeys, h2]
      · simp only [akeys, List.map_cons, List.cons_inj_right]
        rcases h with h | h
        · exact absurd h.symm h2
        · exact ih h

theorem akeys_append {α : Type} (m1 m2 : List (String × α)) :
    akeys (m1 ++ m2) = akeys m1 ++ akeys m2 := by
  simp [akeys]

theorem aget_perm {α : Type} {m1 m2 : List (String × α)} (hp : m1.Perm m2)
    (hn : (akeys m1).Nodup) : ∀ k, aget m1 k = aget m2 k := by
  induction hp with
  | nil => intro k; rfl
  | cons kv _ ih =>
      intro k
      simp only [aget]
      split_ifs with h
      · rfl
      · simp only [akeys, List.map_cons, List.nodup_cons] at hn
        exact ih hn.2 k
  | swap a b l =>
      intro k
      simp only [akeys, List.map_cons, List.nodup_cons, List.mem_cons] at hn
      have hne : b.1 ≠ a.1 := fun h => hn.1 (Or.inl h)
      by_cases h1 : b.1 = k <;> by_cases h2 : a.1 = k
      · exact absurd (h1.trans h2.symm) hne
      · simp [aget, h1, h2]
      · simp [aget, h1, h2]
      · simp [aget, h1, h2]
  | trans hp1 _ ih1 ih2 =>
      intro k
      rw [ih1 hn k]
      have hn2 : _ := (hp1.map Prod.fst).nodup_iff.mp hn
      exact ih2 hn2 k

-- ==================== lemmas about the word table ====================

theorem agetD_abump (m : List (String × Nat)) (k w : String) (c : Nat) :
    agetD (abump m k c) w 0 = agetD m w 0 + if k = w then c else 0 := by
  unfold abump
  by_cases h : k = w
  · subst h
    simp [agetD, aget_aset_self]
  · simp [agetD, aget_aset_ne _ _ _ h, h]

theorem GoodMap_abump {m : List (String × Nat)} {k : String} {c : Nat}
    (h : GoodMap m) (hc : 0 < c) : GoodMap (abump m k c) := by
  obtain ⟨hn, hv⟩ := h
  unfold abump
  cases h2 : aget m k with
  | none =>
      rw [aset_fresh _ h2]
      constructor
      · rw [akeys_append]
        simp only [akeys, List.map_cons, List.map_nil]
        refine List.Nodup.append hn (by simp) ?_
        intro x hx hy
        simp only [List.mem_singleton] at hy
        subst hy
        exact (aget_eq_none_iff.mp h2) hx
      · intro kv hkv
        rcases List.mem_append.mp hkv with h3 | h3
        · exact hv kv h3
        · simp only [List.mem_singleton] at h3
          subst h3
          simpa [agetD, h2] using hc
  | some v =>
      constructor
      · rw [akeys_aset_mem (aget_isSome_iff.mp (by simp [h2]))]
        exact hn
      · intro kv hkv
        rcases mem_aset kv hkv with h3 | h3
        · rw [h3]
          exact Nat.lt_of_lt_of_le hc (Nat.le_add_left c _)
        · exact hv kv h3

theorem aget_of_mem_nodup {α : Type} {m : List (String × α)} (hn : (akeys m).Nodup) :
    ∀ kv ∈ m, aget m kv.1 = some kv.2 := by
  induction m with
  | nil => simp
  | cons kv0 rest ih =>
      intro kv hkv
      simp only [akeys, List.map_cons, List.nodup_cons] at hn
      rcases List.mem_cons.mp hkv with h2 | h2
      · subst h2
        simp [aget]
      · simp only [aget]
        split_ifs with h3
        · exfalso
          apply hn.1
          rw [h3]
          exact List.mem_map_of_mem Prod.fst h2
        · exact ih hn.2 kv h2

theorem GoodMap_entry {m : List (String × Nat)} (h : GoodMap m) :
    ∀ kv ∈ m, aget m kv.1 = some kv.2 := aget_of_mem_nodup h.1

theorem entries_perm_of_fun_eq {m1 m2 : List (String × Nat)}
    (h1 : GoodMap m1) (h2 : GoodMap m2)
    (hf : ∀ k, agetD m1 k 0 = agetD m2 k 0) : m1.Perm m2 := by
  have hmem : ∀ {ma mb : List (String × Nat)}, GoodMap ma → GoodMap mb →
      (∀ k, agetD ma k 0 = agetD mb k 0) → ∀ kv ∈ ma, kv ∈ mb := by
    intro ma mb ha hb hab kv hkv
    have hg : aget ma kv.1 = some kv.2 := GoodMap_entry ha kv hkv
    have hpos : 0 < kv.2 := ha.2 kv hkv
    have hv : agetD mb kv.1 0 = kv.2 := by rw [← hab, agetD, hg]; rfl
    cases hbg : aget mb kv.1 with
    | none => rw [agetD, hbg] at hv; simp at hv; omega
    | some v =>
        rw [agetD, hbg] at hv
        simp at hv
        subst hv
        have := aget_some_mem hbg
        cases kv
        exact this
  have hd1 : m1.Nodup := h1.1.of_map
  have hd2 : m2.Nodup := h2.1.of_map
  rw [List.perm_ext_iff_of_nodup hd1 hd2]
  intro kv
  exact ⟨hmem h1 h2 hf kv, hmem h2 h1 (fun k => (hf k).symm) kv⟩

/-- Sorting with a total transitive comparator gives equal outputs on inputs
that are permutations of each other, provided the comparator is antisymmetric
on the elements present. -/
theorem insertionSort_eq_of_perm {α : Type} {r : α → α → Prop} [DecidableRel r]
    [IsTotal α r] [IsTrans α r] {l1 l2 : List α} (hp : l1.Perm l2)
    (ha : ∀ a ∈ l1, ∀ b ∈ l1, r a b → r b a → a = b) :
    l1.insertionSort r = l2.insertionSort r := by
  apply sorted_perm_eq
  · exact (List.perm_insertionSort r l1).trans (hp.trans (List.perm_insertionSort r l2).symm)
  · exact List.sorted_insertionSort r l1
  · exact List.sorted_insertionSort r l2
  · intro a hamem b hbmem
    exact ha a ((List.perm_insertionSort r l1).mem_iff.mp hamem)
      b ((List.perm_insertionSort r l1).mem_iff.mp hbmem)

-- ==================== word counter vs. maximal runs ====================

theorem cwGo_char : ∀ (l buf : List Char) (m : List (String × Nat)) (w : String),
    agetD (cwGo buf m l) w 0 =
      agetD m w 0 +
        (((runsGo buf l).filter fun r => 5 ≤ r.length).map fun r => (⟨r⟩ : String)).count w := by
  intro l
  induction l with
  | nil =>
      intro buf m w
      simp only [cwGo, runsGo]
      by_cases h1 : buf = []
      · subst h1
        simp
      · rw [if_neg h1]
        by_cases h2 : 5 ≤ buf.length
        · rw [if_pos h2]
          rw [agetD_abump]
          have hf : List.filter (fun r => decide (5 ≤ r.length)) [buf] = [buf] := by simp [h2]
          rw [hf]
          simp only [List.map_cons, List.map_nil]
          by_cases h3 : (⟨buf⟩ : String) = w
          · rw [h3]
            simp
          · rw [if_neg h3]
            rw [List.count_cons_of_ne (fun hh => h3 hh.symm)]
            simp
        · rw [if_neg h2]
          have hf : List.filter (fun r => decide (5 ≤ r.length)) [buf] = [] := by simp [h2]
          rw [hf]
          simp
  | cons c rest ih =>
      intro buf m w
      simp only [cwGo, runsGo]
      by_cases ha : isAlphaCh (toLowerCh c) = true
      · rw [if_pos ha, if_pos ha]
        exact ih (buf ++ [toLowerCh c]) m w
      · rw [if_neg ha, if_neg ha]
        by_cases h1 : buf = []
        · subst h1
          simp only [List.length_nil, if_neg (by omega : ¬ 5 ≤ 0), if_pos rfl]
          exact ih [] m w
        · rw [if_neg h1]
          by_cases h2 : 5 ≤ buf.length
          · rw [if_pos h2]
            rw [ih [] (abump m ⟨buf⟩ 1) w]
            rw [agetD_abump]
            have hf : List.filter (fun r => decide (5 ≤ r.length)) (buf :: runsGo [] rest)
                = buf :: List.filter (fun r => decide (5 ≤ r.length)) (runsGo [] rest) := by
              simp [List.filter_cons, h2]
            rw [hf]
            simp only [List.map_cons]
            by_cases h3 : (⟨buf⟩ : String) = w
            · rw [h3]
              rw [if_pos rfl]
              rw [List.count_cons_self]
              ring
            · rw [if_neg h3]
              rw [List.count_cons_of_ne (fun hh => h3 hh.symm)]
              omega
          · rw [if_neg h2]
            rw [ih [] m w]
            have hf : List.filter (fun r => decide (5 ≤ r.length)) (buf :: runsGo [] rest)
                = List.filter (fun r => decide (5 ≤ r.length)) (runsGo [] rest) := by
              simp [List.filter_cons, h2]
            rw [hf]

/-- Count of a word after processing one file: the old count plus one per
maximal alphabetic run of that file that lower-cases to the word and has
length at least 5. -/
theorem count_words_char (content : List Char) (m : List (String × Nat)) (w : String) :
    agetD (count_words_in_file content m) w 0 = agetD m w 0 + (wordsOfContent content).count w := by
  unfold count_words_in_file wordsOfContent runsOf
  exact cwGo_char content [] m w

theorem GoodMap_cwGo : ∀ (l buf : List Char) (m : List (String × Nat)),
    GoodMap m → GoodMap (cwGo buf m l) := by
  intro l
  induction l with
  | nil =>
      intro buf m h
      simp only [cwGo]
      split_ifs with h1
      · exact GoodMap_abump h (by omega)
      · exact h
  | cons c rest ih =>
      intro buf m h
      simp only [cwGo]
      split_ifs with h1 h2
      · exact ih _ m h
      · exact ih _ _ (GoodMap_abump h (by omega))
      · exact ih _ _ h

theorem GoodMap_count_words (content : List Char) (m : List (String × Nat))
    (h : GoodMap m) : GoodMap (count_words_in_file content m) :=
  GoodMap_cwGo content [] m h

-- ==================== largest-file fold lemmas ====================

theorem firstMax_append (l1 l2 : List (String × Nat)) (cur : String × Int) :
    firstMax (l1 ++ l2) cur = firstMax l2 (firstMax l1 cur) := by
  induction l1 generalizing cur with
  | nil => rfl
  | cons ps rest ih =>
      simp only [List.cons_append, firstMax]
      exact ih _

theorem firstMax_ge : ∀ (l : List (String × Nat)) (cur : String × Int),
    cur.2 ≤ (firstMax l cur).2 := by
  intro l
  induction l with
  | nil => intro cur; exact le_refl _
  | cons ps rest ih =>
      intro cur
      simp only [firstMax]
      split_ifs with h
      · exact le_trans (le_of_lt h) (ih _)
      · exact ih cur

theorem firstMax_mem : ∀ (l : List (String × Nat)) (cur : String × Int),
    firstMax l cur = cur ∨ ∃ ps ∈ l, firstMax l cur = (ps.1, (ps.2 : Int)) := by
  intro l
  induction l with
  | nil => intro cur; exact .inl rfl
  | cons ps rest ih =>
      intro cur
      simp only [firstMax]
      split_ifs with h
      · rcases ih (ps.1, (ps.2 : Int)) with h2 | ⟨qs, hqs, h2⟩
        · exact .inr ⟨ps, List.mem_cons_self _ _, h2⟩
        · exact .inr ⟨qs, List.mem_cons_of_mem _ hqs, h2⟩
      · rcases ih cur with h2 | ⟨qs, hqs, h2⟩
        · exact .inl h2
        · exact .inr ⟨qs, List.mem_cons_of_mem _ hqs, h2⟩

theorem firstMax_once : ∀ (l : List (String × Nat)) (cur : String × Int), -1 ≤ cur.2 →
    firstMax l cur = if (firstMax l ("", -1)).2 > cur.2 then firstMax l ("", -1) else cur := by
  intro l
  induction l with
  | nil =>
      intro cur hcur
      simp only [firstMax]
      rw [if_neg (by omega)]
  | cons ps rest ih =>
      intro cur hcur
      have hpos : (0 : Int) ≤ (ps.2 : Int) := Int.ofNat_nonneg ps.2
      simp only [firstMax]
      rw [if_pos (by omega : (ps.2 : Int) > -1)]
      by_cases h : (ps.2 : Int) > cur.2
      · rw [if_pos h]
        have hge := firstMax_ge rest (ps.1, (ps.2 : Int))
        rw [if_pos (by simp only [] at hge ⊢; omega)]
      · rw [if_neg h]
        rw [ih cur hcur]
        rw [ih (ps.1, (ps.2 : Int)) (by simp only []; omega)]
        by_cases h2 : (firstMax rest ("", -1)).2 > (ps.2 : Int)
        · rw [if_pos h2]
        · rw [if_neg h2]
          simp only []
          rw [if_neg (by omega), if_neg (by omega)]

-- ==================== characterization of the walker ====================

/-- Paths of the subdirectories contributed by one entry. -/
def subPathsE (dp : String) (e : Entry) : List String := (subdirsE dp e).map Prod.fst

theorem aset_append_right {α : Type} {m1 : List (String × α)} {k : String}
    (h : aget m1 k = none) (m2 : List (String × α)) (v : α) :
    aset (m1 ++ m2) k v = m1 ++ aset m2 k v := by
  induction m1 with
  | nil => simp
  | cons kv rest ih =>
      simp only [aget] at h
      by_cases h2 : kv.1 = k
      · rw [if_pos h2] at h; cases h
      · rw [if_neg h2] at h
        simp only [List.cons_append, aset, h2, if_false, List.cons_inj_right]
        exact ih h

theorem akeys_map_pair {σ α : Type} (l : List (String × σ)) (f : String × σ → α) :
    akeys (l.map fun x => (x.1, f x)) = l.map Prod.fst := by
  simp only [akeys, List.map_map]
  rfl

theorem aget_map_pair_none {σ α : Type} {l : List (String × σ)} {k : String}
    (h : k ∉ l.map Prod.fst) (f : String × σ → α) :
    aget (l.map fun x => (x.1, f x)) k = none := by
  rw [aget_eq_none_iff, akeys_map_pair]
  exact h

theorem get_image_info_ok (fp : String) (p : ProbeOutcome) (h : p.popenOk = true) :
    get_image_info fp p = .ok (probeResult fp p) := by
  unfold get_image_info probeResult
  rw [h]
  simp only [Bool.true_eq_false, if_false]
  split_ifs <;> rfl

/-- Effect of `processFile` on the statistics and the globals: counters bumped,
size added when the `stat` succeeded, the largest-file fields folded through
`firstMax` over the (zero- or one-element) statted list, word counts extended
when the path is a `.txt`, and the probe result appended. -/
theorem processFile_char (dp : String) (ds : DirStats) (g : Globals) (f : FileData)
    (hpo : f.probe.popenOk = true) :
    ∃ ds2 g2, processFile dp ds g f = .ok (ds2, g2) ∧
      ds2.n_files = ds.n_files + 1 ∧
      ds2.n_dirs = ds.n_dirs ∧
      ds2.all_files_size = ds.all_files_size + f.fstat.getD 0 ∧
      ds2.largest_images = ds.largest_images ++ (probeResult (pathJoin dp f.name) f.probe).toList ∧
      ds.largest_file_size ≤ ds2.largest_file_size ∧
      (ds2.largest_file_path, ds2.largest_file_size) =
        firstMax
          (match f.fstat with
            | some sz => [(clean_path (pathJoin dp f.name), sz)]
            | none => [])
          (ds.largest_file_path, ds.largest_file_size) ∧
      g2.parent_map = g.parent_map ∧
      g2.n_files_map = abump g.n_files_map dp 1 ∧
      (∀ w, agetD g2.most_common_words_map w 0 =
        agetD g.most_common_words_map w 0 +
          (if ends_with (lowercaseStr (pathJoin dp f.name)) ".txt" = true then
            (wordsOfContent f.content).count w
          else 0)) ∧
      (GoodMap g.most_common_words_map → GoodMap g2.most_common_words_map) := by
  unfold processFile
  simp only [get_image_info_ok _ _ hpo]
  rcases hf : f.fstat with _ | sz
  · simp only [hf]
    by_cases ht : ends_with (lowercaseStr (pathJoin dp f.name)) ".txt" = true
    all_goals simp only [ht, if_true, if_false]
    all_goals cases hpr : probeResult (pathJoin dp f.name) f.probe
    all_goals simp only [hpr]
    all_goals refine ⟨_, _, rfl, ?_, ?_, ?_, ?_, ?_, ?_, ?_, ?_, ?_, ?_⟩
    all_goals first
      | (simp [firstMax, hpr, ht]
         done)
      | (intro w
         simp [ht, count_words_char]
         done)
      | (intro hg
         exact GoodMap_count_words _ _ hg)
  · simp only [hf]
    by_cases hlt : (sz : Int) > ds.largest_file_size
    all_goals simp only [if_pos, if_neg, hlt, if_true, if_false]
    all_goals by_cases ht : ends_with (lowercaseStr (pathJoin dp f.name)) ".txt" = true
    all_goals simp only [ht, if_true, if_false]
    all_goals cases hpr : probeResult (pathJoin dp f.name) f.probe
    all_goals simp only [hpr]
    all_goals refine ⟨_, _, rfl, ?_, ?_, ?_, ?_, ?_, ?_, ?_, ?_, ?_, ?_⟩
    all_goals first
      | (simp [firstMax, hpr, ht, hlt]
         done)
      | (intro w
         simp [ht, count_words_char]
         done)
      | (intro hg
         exact GoodMap_count_words _ _ hg)
      | (simp [firstMax, hlt]
         omega)
      | (simp
         omega)
      | omega

mutual
/-- Full characterization of one step of the walker loop on one entry, for
every entry whose probes can run: the statistics fields advance by the
spec-side counts, the largest-file pair folds through `firstMax`, the word
table gains the entry's word counts, and (when the subtree's directory paths
are fresh and distinct) the two directory maps are extended by exactly the
subtree's records. -/
theorem walkEntry_char (e : Entry) : ∀ (dp : String) (ds : DirStats) (g : Globals),
    probesOkE e = true →
    ∃ ds2 g2, walkEntry dp ds g e = .ok (ds2, g2) ∧
      ds2.n_files = ds.n_files + nFilesE e ∧
      ds2.n_dirs = ds.n_dirs + nDirsE e ∧
      ds2.all_files_size = ds.all_files_size + sumSizesE e ∧
      ds2.largest_images = ds.largest_images ++ imagesE dp e ∧
      ds.largest_file_size ≤ ds2.largest_file_size ∧
      ((∀ ps ∈ stattedE dp e, clean_path ps.1 = ps.1) → -1 ≤ ds.largest_file_size →
        (ds2.largest_file_path, ds2.largest_file_size) =
          firstMax (stattedE dp e) (ds.largest_file_path, ds.largest_file_size)) ∧
      (∀ w, agetD g2.most_common_words_map w 0 =
        agetD g.most_common_words_map w 0 + wContribE dp e w) ∧
      (GoodMap g.most_common_words_map → GoodMap g2.most_common_words_map) ∧
      ((subPathsE dp e).Nodup →
        (∀ p ∈ subPathsE dp e, aget g.n_files_map p = none ∧ aget g.parent_map p = none) →
        (aget g.n_files_map dp).isSome = true →
          g2.parent_map = g.parent_map ++ (subdirsE dp e).map (fun x => (x.1, x.2.1)) ∧
          g2.n_files_map = aset g.n_files_map dp (agetD g.n_files_map dp 0 + nFilesE e) ++
            (subdirsE dp e).map (fun x => (x.1, nFilesL x.2.2))) := by
  cases e with
  | file f =>
      intro dp ds g hpo
      by_cases hskip : skipName f.name = true
      · refine ⟨ds, g, by simp [walkEntry, hskip], ?_, ?_, ?_, ?_, le_refl _, ?_, ?_, id, ?_⟩
        · simp [nFilesE, hskip]
        · simp [nDirsE]
        · simp [sumSizesE, hskip]
        · simp [imagesE, hskip]
        · intro _ _
          simp [stattedE, hskip, firstMax]
        · intro w
          simp [wContribE, wordTextsE, hskip]
        · intro _ _ hdp
          obtain ⟨v, hv⟩ := Option.isSome_iff_exists.mp hdp
          refine ⟨by simp [subdirsE], ?_⟩
          simp [subdirsE, nFilesE, hskip, agetD, hv, aset_agetD_self hv]
      · have hpo2 : f.probe.popenOk = true := by simpa [probesOkE, hskip] using hpo
        obtain ⟨ds2, g2, heq, hnf, hnd, hsz, himg, hmono, hfm, hpm, hnfm, hw, hgd⟩ :=
          processFile_char dp ds g f hpo2
        refine ⟨ds2, g2, by simp [walkEntry, hskip, heq], ?_, ?_, ?_, ?_, hmono, ?_, ?_, hgd, ?_⟩
        · simp [nFilesE, hskip, hnf]
        · simp [nDirsE, hnd]
        · simp [sumSizesE, hskip, hsz]
        · simp [imagesE, hskip, himg]
        · intro _ _
          rw [hfm]
          simp [stattedE, hskip]
        · intro w
          rw [hw w]
          by_cases ht : ends_with (lowercaseStr (pathJoin dp f.name)) ".txt" = true <;>
            simp [wContribE, wordTextsE, hskip, ht]
        · intro _ _ hdp
          refine ⟨by simp [subdirsE, hpm], ?_⟩
          rw [hnfm]
          simp [subdirsE, nFilesE, hskip, abump]
  | other s =>
      intro dp ds g _
      refine ⟨ds, g, by simp [walkEntry], ?_, ?_, ?_, ?_, le_refl _, ?_, ?_, id, ?_⟩
      · simp [nFilesE]
      · simp [nDirsE]
      · simp [sumSizesE]
      · simp [imagesE]
      · intro _ _
        simp [stattedE, firstMax]
      · intro w
        simp [wContribE, wordTextsE]
      · intro _ _ hdp
        obtain ⟨v, hv⟩ := Option.isSome_iff_exists.mp hdp
        refine ⟨by simp [subdirsE], ?_⟩
        simp [subdirsE, nFilesE, agetD, hv, aset_agetD_self hv]
  | dir name es =>
      intro dp ds g hpo
      by_cases hskip : skipName name = true
      · refine ⟨ds, g, by simp [walkEntry, hskip], ?_, ?_, ?_, ?_, le_refl _, ?_, ?_, id, ?_⟩
        · simp [nFilesE, hskip]
        · simp [nDirsE, hskip]
        · simp [sumSizesE, hskip]
        · simp [imagesE, hskip]
        · intro _ _
          simp [stattedE, hskip, firstMax]
        · intro w
          simp [wContribE, wordTextsE, hskip]
        · intro _ _ hdp
          obtain ⟨v, hv⟩ := Option.isSome_iff_exists.mp hdp
          refine ⟨by simp [subdirsE, hskip], ?_⟩
          simp [subdirsE, nFilesE, hskip, agetD, hv, aset_agetD_self hv]
      · have hpes : probesOkL es = true := by simpa [probesOkE, hskip] using hpo
        obtain ⟨sub, g2, heq, hnf, hnd, hsz, himg, hmono, hfm, hw, hgd, hmp⟩ :=
          walkList_char es (pathJoin dp name) initialDirStats
            { g with parent_map := aset g.parent_map (pathJoin dp name) dp
                     n_files_map := aset g.n_files_map (pathJoin dp name) 0 } hpes
        have hsubnf : sub.n_files = nFilesL es := by
          rw [hnf]; simp [initialDirStats]
        have hsubnd : sub.n_dirs = 1 + nDirsL es := by
          rw [hnd]; simp [initialDirStats]
        have hsubsz : sub.all_files_size = sumSizesL es := by
          rw [hsz]; simp [initialDirStats]
        have hsubimg : sub.largest_images = imagesL (pathJoin dp name) es := by
          rw [himg]; simp [initialDirStats]
        by_cases hm : sub.largest_file_size > ds.largest_file_size
        · refine ⟨{ ds with
              largest_file_path := clean_path sub.largest_file_path
              largest_file_size := sub.largest_file_size
              n_files := ds.n_files + sub.n_files
              n_dirs := ds.n_dirs + sub.n_dirs
              all_files_size := ds.all_files_size + sub.all_files_size
              largest_images := ds.largest_images ++ sub.largest_images },
            { g2 with n_files_map := abump g2.n_files_map dp sub.n_files },
            ?_, ?_, ?_, ?_, ?_, le_of_lt hm, ?_, ?_, hgd, ?_⟩
          · simp only [walkEntry]
            rw [if_neg hskip]
            simp only [heq, hm, if_true, ite_true]
          · simp [nFilesE, hskip, hsubnf]
          · simp [nDirsE, hskip, hsubnd]
          · simp [sumSizesE, hskip, hsubsz]
          · simp [imagesE, hskip, hsubimg]
          · intro hc hds
            have hclean : ∀ ps ∈ stattedL (pathJoin dp name) es, clean_path ps.1 = ps.1 := by
              intro ps hps
              exact hc ps (by simpa [stattedE, hskip] using hps)
            have hsubfm : (sub.largest_file_path, sub.largest_file_size) =
                firstMax (stattedL (pathJoin dp name) es) ("", -1) := by
              simpa [initialDirStats] using hfm hclean (by simp [initialDirStats])
            simp only [stattedE, hskip, Bool.false_eq_true, if_false]
            rw [firstMax_once _ _ hds, ← hsubfm]
            rw [if_pos hm]
            rcases firstMax_mem (stattedL (pathJoin dp name) es) ("", -1) with hmm | ⟨ps, hpsm, hmm⟩
            · rw [← hsubfm] at hmm
              have h2 : sub.largest_file_size = -1 := congrArg Prod.snd hmm
              omega
            · rw [← hsubfm] at hmm
              have hpath : sub.largest_file_path = ps.1 := congrArg Prod.fst hmm
              rw [show clean_path sub.largest_file_path = sub.largest_file_path by
                rw [hpath]; exact hclean ps hpsm]
          · intro w
            simpa [wContribE, wordTextsE, hskip] using hw w
          · intro hndp hfresh hdp
            have hsp : subPathsE dp (Entry.dir name es) =
                pathJoin dp name :: subPaths (pathJoin dp name) es := by
              simp [subPathsE, subdirsE, hskip, subPaths]
            rw [hsp] at hndp hfresh
            have hndc := (List.nodup_cons.mp hndp).2
            have hcnotin := (List.nodup_cons.mp hndp).1
            have hfc := hfresh (pathJoin dp name) (List.mem_cons_self _ _)
            have hfr : ∀ p ∈ subPaths (pathJoin dp name) es,
                aget (aset g.n_files_map (pathJoin dp name) 0) p = none ∧
                aget (aset g.parent_map (pathJoin dp name) dp) p = none := by
              intro p hp
              have hpf := hfresh p (List.mem_cons_of_mem _ hp)
              have hpne : pathJoin dp name ≠ p := fun hh => hcnotin (hh ▸ hp)
              exact ⟨by rw [aget_aset_ne _ _ _ hpne]; exact hpf.1,
                     by rw [aget_aset_ne _ _ _ hpne]; exact hpf.2⟩
            have hdpc : (aget (aset g.n_files_map (pathJoin dp name) 0)
                (pathJoin dp name)).isSome = true := by rw [aget_aset_self]; rfl
            obtain ⟨hpmOut, hnfmOut⟩ := hmp hndc hfr hdpc
            obtain ⟨v, hv⟩ := Option.isSome_iff_exists.mp hdp
            constructor
            · show g2.parent_map = _
              rw [hpmOut]
              show aset g.parent_map (pathJoin dp name) dp ++ _ = _
              rw [aset_fresh _ hfc.2]
              simp [subdirsE, hskip, List.append_assoc]
            · show abump g2.n_files_map dp sub.n_files = _
              rw [hnfmOut]
              have hz : agetD (aset g.n_files_map (pathJoin dp name) 0) (pathJoin dp name) 0
                  = 0 := by rw [agetD, aget_aset_self]; rfl
              rw [hz, aset_aset, aset_fresh _ hfc.1, abump]
              have hagdp : aget ((g.n_files_map ++ [(pathJoin dp name, 0 + nFilesL es)]) ++
                  (subdirsL (pathJoin dp name) es).map (fun x => (x.1, nFilesL x.2.2))) dp
                  = some v := aget_append_some (aget_append_some hv)
              rw [agetD, hagdp]
              rw [aset_append_left (by rw [aget_append_some hv]; rfl) _ _]
              rw [aset_append_left (by rw [hv]; rfl) _ _]
              simp only [Option.getD_some, hsubnf]
              simp [subdirsE, hskip, nFilesE, agetD, hv, List.append_assoc]
        · refine ⟨{ ds with
              n_files := ds.n_files + sub.n_files
              n_dirs := ds.n_dirs + sub.n_dirs
              all_files_size := ds.all_files_size + sub.all_files_size
              largest_images := ds.largest_images ++ sub.largest_images },
            { g2 with n_files_map := abump g2.n_files_map dp sub.n_files },
            ?_, ?_, ?_, ?_, ?_, le_refl _, ?_, ?_, hgd, ?_⟩
          · simp only [walkEntry]
            rw [if_neg hskip]
            simp only [heq, hm, if_false, ite_false]
          · simp [nFilesE, hskip, hsubnf]
          · simp [nDirsE, hskip, hsubnd]
          · simp [sumSizesE, hskip, hsubsz]
          · simp [imagesE, hskip, hsubimg]
          · intro hc hds
            have hclean : ∀ ps ∈ stattedL (pathJoin dp name) es, clean_path ps.1 = ps.1 := by
              intro ps hps
              exact hc ps (by simpa [stattedE, hskip] using hps)
            have hsubfm : (sub.largest_file_path, sub.largest_file_size) =
                firstMax (stattedL (pathJoin dp name) es) ("", -1) := by
              simpa [initialDirStats] using hfm hclean (by simp [initialDirStats])
            simp only [stattedE, hskip, Bool.false_eq_true, if_false]
            rw [firstMax_once _ _ hds, ← hsubfm]
            rw [if_neg hm]
          · intro w
            simpa [wContribE, wordTextsE, hskip] using hw w
          · intro hndp hfresh hdp
            have hsp : subPathsE dp (Entry.dir name es) =
                pathJoin dp name :: subPaths (pathJoin dp name) es := by
              simp [subPathsE, subdirsE, hskip, subPaths]
            rw [hsp] at hndp hfresh
            have hndc := (List.nodup_cons.mp hndp).2
            have hcnotin := (List.nodup_cons.mp hndp).1
            have hfc := hfresh (pathJoin dp name) (List.mem_cons_self _ _)
            have hfr : ∀ p ∈ subPaths (pathJoin dp name) es,
                aget (aset g.n_files_map (pathJoin dp name) 0) p = none ∧
                aget (aset g.parent_map (pathJoin dp name) dp) p = none := by
              intro p hp
              have hpf := hfresh p (List.mem_cons_of_mem _ hp)
              have hpne : pathJoin dp name ≠ p := fun hh => hcnotin (hh ▸ hp)
              exact ⟨by rw [aget_aset_ne _ _ _ hpne]; exact hpf.1,
                     by rw [aget_aset_ne _ _ _ hpne]; exact hpf.2⟩
            have hdpc : (aget (aset g.n_files_map (pathJoin dp name) 0)
                (pathJoin dp name)).isSome = true := by rw [aget_aset_self]; rfl
            obtain ⟨hpmOut, hnfmOut⟩ := hmp hndc hfr hdpc
            obtain ⟨v, hv⟩ := Option.isSome_iff_exists.mp hdp
            constructor
            · show g2.parent_map = _
              rw [hpmOut]
              show aset g.parent_map (pathJoin dp name) dp ++ _ = _
              rw [aset_fresh _ hfc.2]
              simp [subdirsE, hskip, List.append_assoc]
            · show abump g2.n_files_map dp sub.n_files = _
              rw [hnfmOut]
              have hz : agetD (aset g.n_files_map (pathJoin dp name) 0) (pathJoin dp name) 0
                  = 0 := by rw [agetD, aget_aset_self]; rfl
              rw [hz, aset_aset, aset_fresh _ hfc.1, abump]
              have hagdp : aget ((g.n_files_map ++ [(pathJoin dp name, 0 + nFilesL es)]) ++
                  (subdirsL (pathJoin dp name) es).map (fun x => (x.1, nFilesL x.2.2))) dp
                  = some v := aget_append_some (aget_append_some hv)
              rw [agetD, hagdp]
              rw [aset_append_left (by rw [aget_append_some hv]; rfl) _ _]
              rw [aset_append_left (by rw [hv]; rfl) _ _]
              simp only [Option.getD_some, hsubnf]
              simp [subdirsE, hskip, nFilesE, agetD, hv, List.append_assoc]
  termination_by sizeOf e

/-- Full characterization of the walker loop over a list of entries; see
`walkEntry_char`. -/
theorem walkList_char (l : EntryList) : ∀ (dp : String) (ds : DirStats) (g : Globals),
    probesOkL l = true →
    ∃ ds2 g2, walkList dp ds g l = .ok (ds2, g2) ∧
      ds2.n_files = ds.n_files + nFilesL l ∧
      ds2.n_dirs = ds.n_dirs + nDirsL l ∧
      ds2.all_files_size = ds.all_files_size + sumSizesL l ∧
      ds2.largest_images = ds.largest_images ++ imagesL dp l ∧
      ds.largest_file_size ≤ ds2.largest_file_size ∧
      ((∀ ps ∈ stattedL dp l, clean_path ps.1 = ps.1) → -1 ≤ ds.largest_file_size →
        (ds2.largest_file_path, ds2.largest_file_size) =
          firstMax (stattedL dp l) (ds.largest_file_path, ds.largest_file_size)) ∧
      (∀ w, agetD g2.most_common_words_map w 0 =
        agetD g.most_common_words_map w 0 + wContribL dp l w) ∧
      (GoodMap g.most_common_words_map → GoodMap g2.most_common_words_map) ∧
      ((subPaths dp l).Nodup →
        (∀ p ∈ subPaths dp l, aget g.n_files_map p = none ∧ aget g.parent_map p = none) →
        (aget g.n_files_map dp).isSome = true →
          g2.parent_map = g.parent_map ++ (subdirsL dp l).map (fun x => (x.1, x.2.1)) ∧
          g2.n_files_map = aset g.n_files_map dp (agetD g.n_files_map dp 0 + nFilesL l) ++
            (subdirsL dp l).map (fun x => (x.1, nFilesL x.2.2))) := by
  cases l with
  | nil =>
      intro dp ds g _
      refine ⟨ds, g, rfl, ?_, ?_, ?_, ?_, le_refl _, ?_, ?_, id, ?_⟩
      · simp [nFilesL]
      · simp [nDirsL]
      · simp [sumSizesL]
      · simp [imagesL]
      · intro _ _
        simp [stattedL, firstMax]
      · intro w
        simp [wContribL, wordTextsL]
      · intro _ _ hdp
        obtain ⟨v, hv⟩ := Option.isSome_iff_exists.mp hdp
        refine ⟨by simp [subdirsL], ?_⟩
        simp [subdirsL, nFilesL, agetD, hv, aset_agetD_self hv]
  | cons e rest =>
      intro dp ds g hp
      rw [probesOkL, Bool.and_eq_true] at hp
      obtain ⟨ds1, g1, heq1, hnf1, hnd1, hsz1, himg1, hmono1, hfm1, hw1, hgd1, hmp1⟩ :=
        walkEntry_char e dp ds g hp.1
      obtain ⟨ds2, g2, heq2, hnf2, hnd2, hsz2, himg2, hmono2, hfm2, hw2, hgd2, hmp2⟩ :=
        walkList_char rest dp ds1 g1 hp.2
      refine ⟨ds2, g2, by simp [walkList, heq1, heq2], ?_, ?_, ?_, ?_,
        le_trans hmono1 hmono2, ?_, ?_, fun h => hgd2 (hgd1 h), ?_⟩
      · rw [hnf2, hnf1]
        simp [nFilesL, Nat.add_assoc]
      · rw [hnd2, hnd1]
        simp [nDirsL, Nat.add_assoc]
      · rw [hsz2, hsz1]
        simp [sumSizesL, Nat.add_assoc]
      · rw [himg2, himg1]
        simp [imagesL, List.append_assoc]
      · intro hc hds
        have hceq : stattedL dp (.cons e rest) = stattedE dp e ++ stattedL dp rest := by
          simp [stattedL]
        rw [hceq] at hc ⊢
        rw [firstMax_append]
        have h1 := hfm1 (fun ps hps => hc ps (List.mem_append_left _ hps)) hds
        have h2 := hfm2 (fun ps hps => hc ps (List.mem_append_right _ hps))
          (le_trans hds hmono1)
        rw [← h1]
        exact h2
      · intro w
        rw [hw2 w, hw1 w]
        simp only [wContribL, wContribE, wordTextsL, List.map_append, List.sum_append]
        omega
      · intro hnd hfresh hdp
        have hspc : subPaths dp (.cons e rest) = subPathsE dp e ++ subPaths dp rest := by
          simp [subPaths, subdirsL, subPathsE]
        rw [hspc] at hnd hfresh
        obtain ⟨hnd1', hnd2', hdisj⟩ := List.nodup_append.mp hnd
        obtain ⟨hpm1', hnfm1'⟩ := hmp1 hnd1'
          (fun p hp => hfresh p (List.mem_append_left _ hp)) hdp
        obtain ⟨v, hv⟩ := Option.isSome_iff_exists.mp hdp
        have hfr2 : ∀ p ∈ subPaths dp rest,
            aget g1.n_files_map p = none ∧ aget g1.parent_map p = none := by
          intro p hp
          have hpf := hfresh p (List.mem_append_right _ hp)
          have hpdp : dp ≠ p := by
            intro hh
            rw [← hh] at hpf
            rw [hv] at hpf
            exact Option.noConfusion hpf.1
          have hpE : p ∉ subPathsE dp e := fun hmem => hdisj hmem hp
          constructor
          · rw [hnfm1']
            rw [aget_append_none (by rw [aget_aset_ne _ _ _ hpdp]; exact hpf.1)]
            exact aget_map_pair_none hpE _
          · rw [hpm1']
            rw [aget_append_none hpf.2]
            exact aget_map_pair_none hpE _
        have hdp1 : (aget g1.n_files_map dp).isSome = true := by
          rw [hnfm1']
          rw [aget_append_some (aget_aset_self _ _ _)]
          rfl
        obtain ⟨hpm2', hnfm2'⟩ := hmp2 hnd2' hfr2 hdp1
        constructor
        · rw [hpm2', hpm1']
          simp [subdirsL, List.append_assoc]
        · rw [hnfm2']
          have hg1dp : agetD g1.n_files_map dp 0 = agetD g.n_files_map dp 0 + nFilesE e := by
            rw [hnfm1', agetD, aget_append_some (aget_aset_self _ _ _)]
            rfl
          rw [hg1dp, hnfm1']
          rw [aset_append_left (by rw [aget_aset_self]; rfl) _ _]
          rw [aset_aset]
          simp [subdirsL, nFilesL, List.append_assoc, Nat.add_assoc]
  termination_by sizeOf l
end

-- ==================== top-level characterization ====================

/-- Characterization of a full `analyzeDir` run on a tree whose probes can
run: every field of the `Results` struct is expressed through the spec-side
functions of the tree. -/
theorem analyzeDir_char (t : EntryList) (n : Nat) (hp : probesOkL t = true) :
    ∃ r, analyzeDir t n = .ok r ∧
      r.n_files = nFilesL t ∧
      r.n_dirs = 1 + nDirsL t ∧
      r.all_files_size = sumSizesL t ∧
      ((∀ ps ∈ stattedL "." t, clean_path ps.1 = ps.1) →
        (r.largest_file_path, r.largest_file_size) = firstMax (stattedL "." t) ("", -1)) ∧
      (∃ mcw, GoodMap mcw ∧ (∀ w, agetD mcw w 0 = wContribL "." t w) ∧
        r.most_common_words = (mcw.insertionSort wordLE).take n) ∧
      r.largest_images = ((imagesL "." t).insertionSort imageLE).take n ∧
      ((subPaths "." t).Nodup → "." ∉ subPaths "." t →
        r.vacant_dirs = get_top_level_vacant_dirs
          ((allDirs t).map fun x => (x.1, x.2.1))
          ((allDirs t).map fun x => (x.1, nFilesL x.2.2))) := by
  obtain ⟨ds, g2, heq, hnf, hnd, hsz, himg, _, hfm, hw, hgd, hmp⟩ :=
    walkList_char t "." initialDirStats
      { initialGlobals with
          parent_map := aset initialGlobals.parent_map "." ""
          n_files_map := aset initialGlobals.n_files_map "." 0 } hp
  have heq2 : get_dir_stats "." "" t initialGlobals = .ok (ds, g2) := heq
  refine ⟨{ largest_file_path := ds.largest_file_path
            largest_file_size := ds.largest_file_size
            n_files := ds.n_files
            n_dirs := ds.n_dirs
            all_files_size := ds.all_files_size
            most_common_words := (g2.most_common_words_map.insertionSort wordLE).take n
            largest_images := (ds.largest_images.insertionSort imageLE).take n
            vacant_dirs := get_top_level_vacant_dirs g2.parent_map g2.n_files_map },
    by simp only [analyzeDir, heq2], ?_, ?_, ?_, ?_, ?_, ?_, ?_⟩
  · rw [hnf]; simp [initialDirStats]
  · rw [hnd]; simp [initialDirStats]
  · rw [hsz]; simp [initialDirStats]
  · intro hc
    simpa [initialDirStats] using hfm hc (by simp [initialDirStats])
  · refine ⟨g2.most_common_words_map, hgd (by simp [initialGlobals, GoodMap, akeys]), ?_, rfl⟩
    intro w
    rw [hw w]
    simp [initialGlobals, agetD, aget]
  · rw [himg]
    simp [initialDirStats]
  · intro hnodup hroot
    have hfr : ∀ p ∈ subPaths "." t,
        aget (aset initialGlobals.n_files_map "." 0) p = none ∧
        aget (aset initialGlobals.parent_map "." "") p = none := by
      intro p hpmem
      have hpne : p ≠ "." := fun hh => hroot (hh ▸ hpmem)
      constructor
      · simp only [initialGlobals, aset, aget]
        rw [if_neg (fun hh => hpne hh.symm)]
      · simp only [initialGlobals, aset, aget]
        rw [if_neg (fun hh => hpne hh.symm)]
    have hdp : (aget (aset initialGlobals.n_files_map "." 0) ".").isSome = true := by
      rw [aget_aset_self]; rfl
    obtain ⟨hpm, hnfm⟩ := hmp hnodup hfr hdp
    show get_top_level_vacant_dirs g2.parent_map g2.n_files_map = _
    rw [hpm, hnfm]
    simp [initialGlobals, aset, agetD, aget, allDirs]

-- ==================== claims ====================

/-- C5: the word counter, for every file content it is given, adds to the
global frequency table exactly one count per maximal run of alphabetic
characters (lower-cased) of length at least 5 — a run ends at any
non-alphabetic character or at end of file, and a trailing run not followed
by a non-alphabetic character is still counted (`runsOf` ends the final
buffered run at end of file).  Stated as: the new count of every word `w`
is the old count plus the number of qualifying runs equal to `w`. -/
theorem claim_C5 (content : List Char) (m : List (String × Nat)) (w : String) :
    agetD (count_words_in_file content m) w 0 = agetD m w 0 + (wordsOfContent content).count w :=
  count_words_char content m w

/-- C2 (counterexample): when `popen` itself fails to launch the probe
command, `get_image_info` does not return "no image" — it reaches
`print_error`, which terminates the program (modelled as `Except.error`). -/
theorem claim_C2_counterexample :
    get_image_info "img.png" { popenOk := false, parsed := none, status := 0 } =
      .error "could not call identify via popen on %simg.png" := by
  decide

/-- C2 (amended): when `popen` succeeds, `get_image_info` never errors, and
it returns "no image" (`.ok none`) exactly when the probe soft-fails: the
exit status is non-zero, or no parseable output was produced, or a parsed
dimension is non-positive (a missing output line leaves both dimensions 0).
Only a failure of `popen` itself aborts the program instead. -/
theorem claim_C2 (fp : String) (p : ProbeOutcome) (h : p.popenOk = true) :
    (∃ v, get_image_info fp p = .ok v) ∧
    (get_image_info fp p = .ok none ↔
      ¬(p.status = 0 ∧ 0 < (p.parsed.getD (0, 0)).1 ∧ 0 < (p.parsed.getD (0, 0)).2)) := by
  rw [get_image_info_ok fp p h]
  refine ⟨⟨probeResult fp p, rfl⟩, ?_⟩
  unfold probeResult
  by_cases hc : p.status = 0 ∧ 0 < (p.parsed.getD (0, 0)).1 ∧ 0 < (p.parsed.getD (0, 0)).2
  · simp [hc]
  · simp [hc]

/-- C2 (witness for the amended theorem). -/
theorem claim_C2_witness :
    (({ popenOk := true, parsed := none, status := 1 } : ProbeOutcome).popenOk = true) ∧
    ((∃ v, get_image_info "a.txt" { popenOk := true, parsed := none, status := 1 } = .ok v) ∧
      (get_image_info "a.txt" { popenOk := true, parsed := none, status := 1 } = .ok none ↔
        ¬((1 : Int) = 0 ∧
          (0 : Int) < ((none : Option (Int × Int)).getD (0, 0)).1 ∧
          (0 : Int) < ((none : Option (Int × Int)).getD (0, 0)).2))) :=
  ⟨rfl, claim_C2 "a.txt" { popenOk := true, parsed := none, status := 1 } rfl⟩

/-- Evaluation of the end-to-end sample tree for every requested count `n`:
the walk itself does not depend on `n`, so the result is the concrete record
with both ranked lists truncated to `n`. -/
theorem sample_eval (n : Nat) : analyzeDir sampleTree n =
    .ok
      { largest_file_path := "a.txt"
        largest_file_size := 17
        n_files := 1
        n_dirs := 2
        all_files_size := 17
        most_common_words := [("hello", 2), ("world", 1)].take n
        largest_images := ([] : List ImageInfo).take n
        vacant_dirs := ["empty"] } := rfl

/-- C4 (counterexample): on the sample tree ("a.txt" containing
"hello hello world" and an empty subdirectory), requesting `n = 2` yields
`most_common_words = [("hello", 2), ("world", 1)]`, not `[("hello", 2)]` —
"world" is a 5-letter word and is counted, so the claim's
"for every n ≥ 1" fails at n = 2. -/
theorem claim_C4_counterexample :
    (analyzeDir sampleTree 2).map Results.most_common_words =
      .ok [("hello", 2), ("world", 1)] ∧
    (analyzeDir sampleTree 2).map Results.most_common_words ≠ .ok [("hello", 2)] := by
  constructor
  · decide
  · decide

/-- C4 (amended): on the sample tree, for every n ≥ 1 the analysis returns
`vacant_dirs = ["empty"]`, `n_files = 1`, `n_dirs = 2`, and
`most_common_words = [("hello", 2)]` when n = 1, while any n ≥ 2 also
includes `("world", 1)`. -/
theorem claim_C4 (n : Nat) (h : 1 ≤ n) :
    (analyzeDir sampleTree n).map
        (fun r => (r.most_common_words, r.vacant_dirs, r.n_files, r.n_dirs)) =
      .ok ((if n = 1 then [("hello", 2)] else [("hello", 2), ("world", 1)]),
        ["empty"], 1, 2) := by
  rw [sample_eval n]
  match n, h with
  | 1, _ => rfl
  | (k + 2), _ => simp [List.take, Except.map]

/-- C4 (witness for the amended theorem). -/
theorem claim_C4_witness :
    (1 ≤ 1) ∧
    ((analyzeDir sampleTree 1).map
        (fun r => (r.most_common_words, r.vacant_dirs, r.n_files, r.n_dirs)) =
      .ok ((if 1 = 1 then [("hello", 2)] else [("hello", 2), ("world", 1)]),
        ["empty"], 1, 2)) :=
  ⟨le_refl 1, claim_C4 1 (le_refl 1)⟩

/-- C9: `all_files_size` is the sum of the sizes of exactly the regular
files whose `stat` call succeeded (`sumSizesL` adds `fstat.getD 0`, so a
failed lookup contributes nothing), and such failures do not stop the
traversal: the analysis still returns a result. -/
theorem claim_C9 (t : EntryList) (n : Nat) (hp : probesOkL t = true) :
    ∃ r, analyzeDir t n = .ok r ∧ r.all_files_size = sumSizesL t := by
  obtain ⟨r, heq, _, _, hsz, _, _, _, _⟩ := analyzeDir_char t n hp
  exact ⟨r, heq, hsz⟩

/-- Witness tree for C9: one file whose `stat` failed, one statted file of 5 bytes. -/
def c9tree : EntryList :=
  entriesOf
    [ .file { name := "bad", fstat := none, content := [], probe := probeFail }
    , .file { name := "a", fstat := some 5, content := [], probe := probeFail } ]

/-- C9 (witness): a tree with one statted file of 5 bytes and one file whose
`stat` failed has `all_files_size = 5`. -/
theorem claim_C9_witness :
    probesOkL c9tree = true ∧
    ∃ r, analyzeDir c9tree 0 = .ok r ∧ r.all_files_size = sumSizesL c9tree :=
  ⟨by decide, claim_C9 c9tree 0 (by decide)⟩

/-- C10: when the tree contains no regular file at all, or no file's `stat`
succeeded (that is, the statted-file list is empty), the returned
`largest_file_path` is the empty string and `largest_file_size` is the
sentinel `-1`, exactly as initialized, and they are exposed unchanged in
the `Results`. -/
theorem claim_C10 (t : EntryList) (n : Nat) (hp : probesOkL t = true)
    (hno : stattedL "." t = []) :
    ∃ r, analyzeDir t n = .ok r ∧ r.largest_file_path = "" ∧ r.largest_file_size = -1 := by
  obtain ⟨r, heq, _, _, _, hfm, _, _, _⟩ := analyzeDir_char t n hp
  have h2 := hfm (by rw [hno]; simp)
  rw [hno] at h2
  exact ⟨r, heq, congrArg Prod.fst h2, congrArg Prod.snd h2⟩

/-- Witness tree for C10: a subdirectory holding one file whose `stat` failed. -/
def c10tree : EntryList :=
  entriesOf
    [ .dir "sub" (entriesOf
        [ .file { name := "bad", fstat := none, content := [], probe := probeFail } ]) ]

/-- C10 (witness): a tree with a subdirectory and a file whose `stat`
failed reports the sentinel values. -/
theorem claim_C10_witness :
    probesOkL c10tree = true ∧
    stattedL "." c10tree = [] ∧
    ∃ r, analyzeDir c10tree 3 = .ok r ∧
      r.largest_file_path = "" ∧ r.largest_file_size = -1 :=
  ⟨by decide, by decide, claim_C10 c10tree 3 (by decide) (by decide)⟩

/-- Shape of the sample result for any requested count. -/
def sampleResult (n : Nat) : Results :=
  { largest_file_path := "a.txt"
    largest_file_size := 17
    n_files := 1
    n_dirs := 2
    all_files_size := 17
    most_common_words := [("hello", 2), ("world", 1)].take n
    largest_images := ([] : List ImageInfo).take n
    vacant_dirs := ["empty"] }

theorem sample_eval2 (n : Nat) : analyzeDir sampleTree n = .ok (sampleResult n) := rfl

theorem processFile_popen (dp : String) (ds : DirStats) (g : Globals) (f : FileData)
    (h : f.probe.popenOk = false) :
    processFile dp ds g f =
      .error ("could not call identify via popen on %s" ++ pathJoin dp f.name) := by
  unfold processFile get_image_info
  simp only [h]
  rcases f.fstat with _ | sz <;>
    by_cases ht : ends_with (lowercaseStr (pathJoin dp f.name)) ".txt" = true <;>
      simp [ht]

/-- C6: largest-file selection uses a strict greater-than everywhere.
Globally this means the reported pair is `firstMax` of the statted files in
traversal order: a fold whose champion is replaced only on strictly larger
size, so the first-seen file wins ties.  Locally: (i) within a directory a
statted file leaves the current champion untouched when its size does not
strictly exceed it, and replaces it when it does; (ii) when merging a
child's `DirStats` into the parent, the child's value replaces the parent's
only when strictly larger — ties keep the parent's current value. -/
theorem claim_C6 :
    (∀ (t : EntryList) (n : Nat) (r : Results), probesOkL t = true →
      (∀ ps ∈ stattedL "." t, clean_path ps.1 = ps.1) →
      analyzeDir t n = .ok r →
      (r.largest_file_path, r.largest_file_size) = firstMax (stattedL "." t) ("", -1)) ∧
    (∀ (dp : String) (ds : DirStats) (g : Globals) (f : FileData) (sz : Nat)
        (ds2 : DirStats) (g2 : Globals),
      f.fstat = some sz → processFile dp ds g f = .ok (ds2, g2) →
      ((sz : Int) ≤ ds.largest_file_size →
        ds2.largest_file_path = ds.largest_file_path ∧
        ds2.largest_file_size = ds.largest_file_size) ∧
      (ds.largest_file_size < (sz : Int) →
        ds2.largest_file_path = clean_path (pathJoin dp f.name) ∧
        ds2.largest_file_size = (sz : Int))) ∧
    (∀ (dp name : String) (es : EntryList) (ds : DirStats) (g : Globals)
        (sub : DirStats) (g2 : Globals) (ds3 : DirStats) (g3 : Globals),
      skipName name = false →
      walkList (pathJoin dp name) initialDirStats
        { g with parent_map := aset g.parent_map (pathJoin dp name) dp
                 n_files_map := aset g.n_files_map (pathJoin dp name) 0 } es = .ok (sub, g2) →
      walkEntry dp ds g (.dir name es) = .ok (ds3, g3) →
      (sub.largest_file_size ≤ ds.largest_file_size →
        ds3.largest_file_path = ds.largest_file_path ∧
        ds3.largest_file_size = ds.largest_file_size) ∧
      (ds.largest_file_size < sub.largest_file_size →
        ds3.largest_file_path = clean_path sub.largest_file_path ∧
        ds3.largest_file_size = sub.largest_file_size)) := by
  refine ⟨?_, ?_, ?_⟩
  · intro t n r hp hc heq
    obtain ⟨r2, heq2, _, _, _, hfm, _, _, _⟩ := analyzeDir_char t n hp
    have h3 : r = r2 := by
      have h4 := heq.symm.trans heq2
      injection h4
    subst h3
    exact hfm hc
  · intro dp ds g f sz ds2 g2 hf heq
    cases hpo : f.probe.popenOk with
    | false =>
        rw [processFile_popen dp ds g f hpo] at heq
        cases heq
    | true =>
        obtain ⟨ds2b, g2b, heq2, _, _, _, _, _, hfm, _, _, _, _⟩ := processFile_char dp ds g f hpo
        have h3 : ds2b = ds2 := by
          have h4 := heq2.symm.trans heq
          injection h4 with h5
          exact congrArg Prod.fst h5
        subst h3
        simp only [hf] at hfm
        constructor
        · intro hle
          have h5 : firstMax [(clean_path (pathJoin dp f.name), sz)]
              (ds.largest_file_path, ds.largest_file_size) =
              (ds.largest_file_path, ds.largest_file_size) := by
            simp only [firstMax]
            rw [if_neg (not_lt.mpr hle)]
          rw [h5] at hfm
          exact ⟨congrArg Prod.fst hfm, congrArg Prod.snd hfm⟩
        · intro hlt
          have h5 : firstMax [(clean_path (pathJoin dp f.name), sz)]
              (ds.largest_file_path, ds.largest_file_size) =
              (clean_path (pathJoin dp f.name), (sz : Int)) := by
            simp only [firstMax]
            rw [if_pos hlt]
          rw [h5] at hfm
          exact ⟨congrArg Prod.fst hfm, congrArg Prod.snd hfm⟩
  · intro dp name es ds g sub g2 ds3 g3 hskip hwl hwe
    simp only [walkEntry, hskip, Bool.false_eq_true, if_false, hwl] at hwe
    by_cases hm : sub.largest_file_size > ds.largest_file_size
    · rw [if_pos hm] at hwe
      injection hwe with h4
      have hA : _ = ds3 := congrArg Prod.fst h4
      constructor
      · intro hle
        exact absurd hm (by omega)
      · intro _
        rw [← hA]
        exact ⟨rfl, rfl⟩
    · rw [if_neg hm] at hwe
      injection hwe with h4
      have hA : _ = ds3 := congrArg Prod.fst h4
      constructor
      · intro _
        rw [← hA]
        exact ⟨rfl, rfl⟩
      · intro hlt
        exact absurd hlt (by omega)

/-- C6 (witness). -/
theorem claim_C6_witness :
    probesOkL sampleTree = true ∧
    (∀ ps ∈ stattedL "." sampleTree, clean_path ps.1 = ps.1) ∧
    ((sampleResult 0).largest_file_path, (sampleResult 0).largest_file_size) =
      firstMax (stattedL "." sampleTree) ("", -1) :=
  ⟨by decide, by decide,
    claim_C6.1 sampleTree 0 (sampleResult 0) (by decide) (by decide) (sample_eval2 0)⟩

/-- C7: in the returned `Results`, `most_common_words` is sorted by
descending count with ascending lexicographic tie-break and has length at
most `n`; `largest_images` is sorted by descending pixel area with ascending
path tie-break and has length at most `n`; `n = 0` yields both lists empty;
the scalar statistics do not depend on `n`; the lists at a smaller `n` are
prefixes of the lists at a larger `n`; and when fewer items exist than were
requested, all of them are returned. -/
theorem claim_C7 (t : EntryList) (n : Nat) (r : Results) (h : analyzeDir t n = .ok r) :
    r.most_common_words.Sorted wordLE ∧ r.most_common_words.length ≤ n ∧
    r.largest_images.Sorted imageLE ∧ r.largest_images.length ≤ n ∧
    (n = 0 → r.most_common_words = [] ∧ r.largest_images = []) ∧
    (∀ m rm, n ≤ m → analyzeDir t m = .ok rm →
      rm.largest_file_path = r.largest_file_path ∧ rm.largest_file_size = r.largest_file_size ∧
      rm.n_files = r.n_files ∧ rm.n_dirs = r.n_dirs ∧ rm.all_files_size = r.all_files_size ∧
      r.most_common_words = rm.most_common_words.take n ∧
      r.largest_images = rm.largest_images.take n ∧
      (rm.most_common_words.length ≤ n → rm.most_common_words = r.most_common_words) ∧
      (rm.largest_images.length ≤ n → rm.largest_images = r.largest_images)) := by
  unfold analyzeDir at h
  cases hgd : get_dir_stats "." "" t initialGlobals with
  | error e => rw [hgd] at h; cases h
  | ok p =>
      obtain ⟨ds, g⟩ := p
      rw [hgd] at h
      injection h with h2
      subst h2
      refine ⟨?_, ?_, ?_, ?_, ?_, ?_⟩
      · exact List.Pairwise.sublist (List.take_sublist _ _) (List.sorted_insertionSort _ _)
      · simp [List.length_take]
      · exact List.Pairwise.sublist (List.take_sublist _ _) (List.sorted_insertionSort _ _)
      · simp [List.length_take]
      · intro hn
        subst hn
        simp
      · intro m rm hnm hm
        unfold analyzeDir at hm
        rw [hgd] at hm
        injection hm with h3
        subst h3
        refine ⟨rfl, rfl, rfl, rfl, rfl, ?_, ?_, ?_, ?_⟩
        · simp [List.take_take, Nat.min_eq_left hnm]
        · simp [List.take_take, Nat.min_eq_left hnm]
        · intro hlen
          show List.take m (List.insertionSort wordLE g.most_common_words_map) =
            List.take n (List.insertionSort wordLE g.most_common_words_map)
          have hlen2 : (List.take m
              (List.insertionSort wordLE g.most_common_words_map)).length ≤ n := hlen
          have e1 := List.take_of_length_le hlen2
          rw [List.take_take, Nat.min_eq_left hnm] at e1
          exact e1.symm
        · intro hlen
          show List.take m (List.insertionSort imageLE ds.largest_images) =
            List.take n (List.insertionSort imageLE ds.largest_images)
          have hlen2 : (List.take m
              (List.insertionSort imageLE ds.largest_images)).length ≤ n := hlen
          have e1 := List.take_of_length_le hlen2
          rw [List.take_take, Nat.min_eq_left hnm] at e1
          exact e1.symm

/-- C7 (witness). -/
theorem claim_C7_witness :
    (sampleResult 1).most_common_words.Sorted wordLE ∧
    (sampleResult 1).most_common_words.length ≤ 1 ∧
    (sampleResult 1).largest_images.Sorted imageLE ∧
    (sampleResult 1).largest_images.length ≤ 1 :=
  ⟨(claim_C7 sampleTree 1 (sampleResult 1) (sample_eval2 1)).1,
   (claim_C7 sampleTree 1 (sampleResult 1) (sample_eval2 1)).2.1,
   (claim_C7 sampleTree 1 (sampleResult 1) (sample_eval2 1)).2.2.1,
   (claim_C7 sampleTree 1 (sampleResult 1) (sample_eval2 1)).2.2.2.1⟩

/-- Direct non-skipped subdirectory entries of one directory. -/
def childDirs : EntryList → List (String × EntryList)
  | .nil => []
  | .cons (.dir n es) rest => if skipName n then childDirs rest else (n, es) :: childDirs rest
  | .cons _ rest => childDirs rest

theorem ndirs_children (l : EntryList) :
    nDirsL l = ((childDirs l).map fun c => 1 + nDirsL c.2).sum := by
  cases l with
  | nil => simp [nDirsL, childDirs]
  | cons e rest =>
      cases e with
      | file f => simp [nDirsL, nDirsE, childDirs, ndirs_children rest]
      | other s => simp [nDirsL, nDirsE, childDirs, ndirs_children rest]
      | dir nm es =>
          by_cases hs : skipName nm = true
          · simp [nDirsL, nDirsE, childDirs, hs, ndirs_children rest]
          · simp [nDirsL, nDirsE, childDirs, hs, ndirs_children rest, Nat.add_assoc]
  termination_by sizeOf l

/-- C8: every recursive call's `n_dirs` equals 1 (the directory itself) plus
the sum of its direct children's `n_dirs` values (each child contributing
`1 + nDirsL` of its own contents), so `Results.n_dirs` equals 1 plus the
number of subdirectories transitively contained under the root. -/
theorem claim_C8 :
    (∀ (t : EntryList) (n : Nat), probesOkL t = true →
      ∃ r, analyzeDir t n = .ok r ∧ r.n_dirs = 1 + nDirsL t) ∧
    (∀ (dp pp : String) (es : EntryList) (g : Globals), probesOkL es = true →
      ∃ ds g2, get_dir_stats dp pp es g = .ok (ds, g2) ∧
        ds.n_dirs = 1 + ((childDirs es).map fun c => 1 + nDirsL c.2).sum) := by
  constructor
  · intro t n hp
    obtain ⟨r, heq, _, hnd, _⟩ := analyzeDir_char t n hp
    exact ⟨r, heq, hnd⟩
  · intro dp pp es g hp
    obtain ⟨ds, g2, heq, _, hnd, _⟩ :=
      walkList_char es dp initialDirStats
        { g with parent_map := aset g.parent_map dp pp
                 n_files_map := aset g.n_files_map dp 0 } hp
    refine ⟨ds, g2, heq, ?_⟩
    rw [hnd, ← ndirs_children]
    simp [initialDirStats, Nat.add_comm]

/-- C8 (witness). -/
theorem claim_C8_witness :
    probesOkL sampleTree = true ∧
    (∃ r, analyzeDir sampleTree 0 = .ok r ∧ r.n_dirs = 1 + nDirsL sampleTree) ∧
    (∃ ds g2, get_dir_stats "." "" sampleTree initialGlobals = .ok (ds, g2) ∧
      ds.n_dirs = 1 + ((childDirs sampleTree).map fun c => 1 + nDirsL c.2).sum) :=
  ⟨by decide, claim_C8.1 sampleTree 0 (by decide),
    claim_C8.2 "." "" sampleTree initialGlobals (by decide)⟩

-- ==================== structural lemmas about the subdirectory records ====================

mutual
theorem subdirsE_parent (dp : String) (e : Entry) :
    ∀ x ∈ subdirsE dp e, x.2.1 = dp ∨ x.2.1 ∈ subPathsE dp e := by
  cases e with
  | file f => simp [subdirsE]
  | other s => simp [subdirsE]
  | dir nm es =>
      by_cases hs : skipName nm = true
      · simp [subdirsE, hs]
      · intro x hx
        simp only [subdirsE, hs, Bool.false_eq_true, if_false, List.mem_cons] at hx
        rcases hx with hx | hx
        · subst hx
          exact .inl rfl
        · rcases subdirsL_parent (pathJoin dp nm) es x hx with h | h
          · refine .inr ?_
            simp only [subPathsE, subdirsE, hs, Bool.false_eq_true, if_false, List.map_cons,
              List.mem_cons]
            exact .inl h
          · refine .inr ?_
            simp only [subPathsE, subdirsE, hs, Bool.false_eq_true, if_false, List.map_cons,
              List.mem_cons]
            exact .inr h
theorem subdirsL_parent (dp : String) (l : EntryList) :
    ∀ x ∈ subdirsL dp l, x.2.1 = dp ∨ x.2.1 ∈ subPaths dp l := by
  cases l with
  | nil => simp [subdirsL]
  | cons e rest =>
      intro x hx
      simp only [subdirsL, List.mem_append] at hx
      have hsp : subPaths dp (.cons e rest) = subPathsE dp e ++ subPaths dp rest := by
        simp [subPaths, subdirsL, subPathsE]
      rcases hx with hx | hx
      · rcases subdirsE_parent dp e x hx with h | h
        · exact .inl h
        · refine .inr ?_
          rw [hsp]
          exact List.mem_append_left _ h
      · rcases subdirsL_parent dp rest x hx with h | h
        · exact .inl h
        · refine .inr ?_
          rw [hsp]
          exact List.mem_append_right _ h
end

mutual
theorem subdirsE_closed (dp : String) (e : Entry) :
    ∀ x ∈ subdirsE dp e, ∀ y ∈ subdirsL x.1 x.2.2, y ∈ subdirsE dp e := by
  cases e with
  | file f => simp [subdirsE]
  | other s => simp [subdirsE]
  | dir nm es =>
      by_cases hs : skipName nm = true
      · simp [subdirsE, hs]
      · intro x hx y hy
        simp only [subdirsE, hs, Bool.false_eq_true, if_false, List.mem_cons] at hx ⊢
        rcases hx with hx | hx
        · subst hx
          exact .inr hy
        · exact .inr (subdirsL_closed (pathJoin dp nm) es x hx y hy)
theorem subdirsL_closed (dp : String) (l : EntryList) :
    ∀ x ∈ subdirsL dp l, ∀ y ∈ subdirsL x.1 x.2.2, y ∈ subdirsL dp l := by
  cases l with
  | nil => simp [subdirsL]
  | cons e rest =>
      intro x hx y hy
      simp only [subdirsL, List.mem_append] at hx ⊢
      rcases hx with hx | hx
      · exact .inl (subdirsE_closed dp e x hx y hy)
      · exact .inr (subdirsL_closed dp rest x hx y hy)
end

mutual
theorem subdirsE_count (dp : String) (e : Entry) :
    ∀ x ∈ subdirsE dp e, nFilesL x.2.2 ≤ nFilesE e := by
  cases e with
  | file f => simp [subdirsE]
  | other s => simp [subdirsE]
  | dir nm es =>
      by_cases hs : skipName nm = true
      · simp [subdirsE, hs]
      · intro x hx
        simp only [subdirsE, hs, Bool.false_eq_true, if_false, List.mem_cons] at hx
        simp only [nFilesE, hs, Bool.false_eq_true, if_false]
        rcases hx with hx | hx
        · subst hx
          exact le_refl _
        · exact subdirsL_count (pathJoin dp nm) es x hx
theorem subdirsL_count (dp : String) (l : EntryList) :
    ∀ x ∈ subdirsL dp l, nFilesL x.2.2 ≤ nFilesL l := by
  cases l with
  | nil => simp [subdirsL]
  | cons e rest =>
      intro x hx
      simp only [subdirsL, List.mem_append] at hx
      simp only [nFilesL]
      rcases hx with hx | hx
      · exact le_trans (subdirsE_count dp e x hx) (Nat.le_add_right _ _)
      · exact le_trans (subdirsL_count dp rest x hx) (Nat.le_add_left _ _)
end

theorem allDirs_fst (t : EntryList) : (allDirs t).map Prod.fst = "." :: subPaths "." t := by
  simp [allDirs, subPaths]

/-- Membership in the vacancy report computed from the recorded maps: a
cleaned directory path is reported exactly when the directory's recursive
file count is 0 while its recorded parent's count is nonzero, the root's
parent being the sentinel entry `"" ↦ 1`. -/
theorem vacant_char (t : EntryList) (hnodup : (subPaths "." t).Nodup)
    (hroot : "." ∉ subPaths "." t) (hempty : "" ∉ subPaths "." t) (d : String) :
    d ∈ get_top_level_vacant_dirs ((allDirs t).map fun x => (x.1, x.2.1))
        ((allDirs t).map fun x => (x.1, nFilesL x.2.2)) ↔
      ∃ x ∈ allDirs t, d = clean_path x.1 ∧ nFilesL x.2.2 = 0 ∧
        (x.2.1 = "" ∨ ∃ y ∈ allDirs t, y.1 = x.2.1 ∧ nFilesL y.2.2 ≠ 0) := by
  have hAnd : ((allDirs t).map Prod.fst).Nodup := by
    rw [allDirs_fst]
    exact List.nodup_cons.mpr ⟨hroot, hnodup⟩
  have hkeysn : akeys ((allDirs t).map fun x => (x.1, nFilesL x.2.2)) = (allDirs t).map Prod.fst :=
    akeys_map_pair _ _
  have hkeysp : akeys ((allDirs t).map fun x => (x.1, x.2.1)) = (allDirs t).map Prod.fst :=
    akeys_map_pair _ _
  have hfe : aget ((allDirs t).map fun x => (x.1, nFilesL x.2.2)) "" = none := by
    rw [aget_eq_none_iff, hkeysn, allDirs_fst]
    intro hmem
    rcases List.mem_cons.mp hmem with h | h
    · exact absurd h (by decide)
    · exact hempty h
  have hnodN : (akeys ((allDirs t).map fun x => (x.1, nFilesL x.2.2))).Nodup := by
    rw [hkeysn]; exact hAnd
  have hnodP : (akeys ((allDirs t).map fun x => (x.1, x.2.1))).Nodup := by
    rw [hkeysp]; exact hAnd
  have hnfm : ∀ x ∈ allDirs t,
      aget (((allDirs t).map fun x => (x.1, nFilesL x.2.2)) ++ [("", 1)]) x.1 =
        some (nFilesL x.2.2) := by
    intro x hx
    apply aget_append_some
    exact aget_of_mem_nodup hnodN (x.1, nFilesL x.2.2)
      (List.mem_map_of_mem (fun z => (z.1, nFilesL z.2.2)) hx)
  have hpm : ∀ x ∈ allDirs t,
      aget ((allDirs t).map fun x => (x.1, x.2.1)) x.1 = some x.2.1 := by
    intro x hx
    exact aget_of_mem_nodup hnodP (x.1, x.2.1)
      (List.mem_map_of_mem (fun z => (z.1, z.2.1)) hx)
  have hsent : aget (((allDirs t).map fun x => (x.1, nFilesL x.2.2)) ++ [("", 1)]) "" =
      some 1 := by
    rw [aget_append_none hfe]
    simp [aget]
  have hxpath : ∀ x ∈ allDirs t, x.1 = "." ∨ x.1 ∈ subPaths "." t := by
    intro x hx
    rcases List.mem_cons.mp hx with h | h
    · subst h
      exact .inl rfl
    · exact .inr (List.mem_map_of_mem Prod.fst h)
  unfold get_top_level_vacant_dirs
  rw [aset_fresh 1 hfe]
  rw [List.mem_insertionSort]
  rw [List.mem_map]
  constructor
  · rintro ⟨kv, hkvf, hd⟩
    rw [List.mem_filter] at hkvf
    obtain ⟨hkvm, hP⟩ := hkvf
    rw [Bool.and_eq_true, decide_eq_true_eq, decide_eq_true_eq] at hP
    obtain ⟨hP1, hP2⟩ := hP
    rcases List.mem_append.mp hkvm with hkv | hkv
    · obtain ⟨x, hx, hxkv⟩ := List.mem_map.mp hkv
      refine ⟨x, hx, ?_, ?_, ?_⟩
      · rw [← hd, ← hxkv]
      · rw [← hxkv] at hP1
        exact hP1
      · by_cases hpp : x.2.1 = ""
        · exact .inl hpp
        · refine .inr ?_
          have hplook : agetD ((allDirs t).map fun x => (x.1, x.2.1)) kv.1 "" = x.2.1 := by
            rw [← hxkv, agetD, hpm x hx]
            rfl
          rw [hplook] at hP2
          have hy : ∃ y ∈ allDirs t, y.1 = x.2.1 := by
            rcases List.mem_cons.mp hx with h | h
            · subst h
              exact absurd rfl hpp
            · rcases subdirsL_parent "." t x h with h2 | h2
              · exact ⟨(".", "", t), List.mem_cons_self _ _, h2.symm⟩
              · obtain ⟨y, hy, hy1⟩ := List.mem_map.mp h2
                exact ⟨y, List.mem_cons_of_mem _ hy, hy1⟩
          obtain ⟨y, hyA, hy1⟩ := hy
          refine ⟨y, hyA, hy1, ?_⟩
          rw [← hy1] at hP2
          rw [agetD, hnfm y hyA] at hP2
          simp only [Option.getD_some] at hP2
          omega
    · simp only [List.mem_singleton] at hkv
      subst hkv
      cases hP1
  · rintro ⟨x, hx, hd, hx0, hpar⟩
    refine ⟨(x.1, nFilesL x.2.2), ?_, hd.symm⟩
    rw [List.mem_filter]
    refine ⟨List.mem_append_left _ (List.mem_map_of_mem _ hx), ?_⟩
    rw [Bool.and_eq_true, decide_eq_true_eq, decide_eq_true_eq]
    refine ⟨hx0, ?_⟩
    have hplook : agetD ((allDirs t).map fun x => (x.1, x.2.1)) x.1 "" = x.2.1 := by
      rw [agetD, hpm x hx]
      rfl
    rw [hplook]
    rcases hpar with hpp | ⟨y, hyA, hy1, hyne⟩
    · rw [hpp, agetD, hsent]
      simp
    · rw [← hy1, agetD, hnfm y hyA]
      simpa using Nat.pos_of_ne_zero hyne

/-- C1: on a well-formed tree, a directory path appears in
`Results.vacant_dirs` exactly when the directory's recursive file count
(its direct files plus all descendants' files, `nFilesL` of its contents) is
zero and its parent's recursive count is nonzero — the root boundary counts
as nonzero through the sentinel seed `n_files_map[""] = 1`.  Consequently no
reported vacant directory has a reported ancestor, and the returned list is
sorted lexicographically ascending. -/
theorem claim_C1 (t : EntryList) (n : Nat) (r : Results)
    (hwf : WfFS t) (hp : probesOkL t = true) (heq : analyzeDir t n = .ok r) :
    (∀ d, d ∈ r.vacant_dirs ↔
      ∃ x ∈ allDirs t, d = clean_path x.1 ∧ nFilesL x.2.2 = 0 ∧
        (x.2.1 = "" ∨ ∃ y ∈ allDirs t, y.1 = x.2.1 ∧ nFilesL y.2.2 ≠ 0)) ∧
    (∀ x ∈ allDirs t, ∀ y ∈ subdirsL x.1 x.2.2,
      ¬(clean_path x.1 ∈ r.vacant_dirs ∧ clean_path y.1 ∈ r.vacant_dirs)) ∧
    r.vacant_dirs.Sorted strLeP := by
  obtain ⟨hnodup, hroot, hempty, hclean, hstat, himgnd⟩ := hwf
  obtain ⟨r2, heq2, _, _, _, _, _, _, hvac⟩ := analyzeDir_char t n hp
  have hr : r = r2 := by
    have h4 := heq.symm.trans heq2
    injection h4
  subst hr
  have hveq := hvac hnodup hroot
  have hchar : ∀ d, d ∈ r.vacant_dirs ↔
      ∃ x ∈ allDirs t, d = clean_path x.1 ∧ nFilesL x.2.2 = 0 ∧
        (x.2.1 = "" ∨ ∃ y ∈ allDirs t, y.1 = x.2.1 ∧ nFilesL y.2.2 ≠ 0) := by
    intro d
    rw [hveq]
    exact vacant_char t hnodup hroot hempty d
  have hAnd : ((allDirs t).map Prod.fst).Nodup := by
    rw [allDirs_fst]
    exact List.nodup_cons.mpr ⟨hroot, hnodup⟩
  have hfstinj := List.inj_on_of_nodup_map hAnd
  have hcl2 : ((allDirs t).map fun z => clean_path z.1).Nodup := by
    have h5 : ((allDirs t).map fun z => clean_path z.1) =
        (("." : String) :: subPaths "." t).map clean_path := by
      rw [← allDirs_fst t, List.map_map]
      rfl
    rw [h5]
    exact hclean
  have hcleaninj := List.inj_on_of_nodup_map hcl2
  refine ⟨hchar, ?_, ?_⟩
  · intro x hx y hy hboth
    obtain ⟨hvx, hvy⟩ := hboth
    have hyA : y ∈ allDirs t := by
      rcases List.mem_cons.mp hx with h | h
      · subst h
        exact List.mem_cons_of_mem _ hy
      · exact List.mem_cons_of_mem _ (subdirsL_closed "." t x h y hy)
    have hx0 : nFilesL x.2.2 = 0 := by
      obtain ⟨x2, hx2A, hdx, hx20, _⟩ := (hchar (clean_path x.1)).mp hvx
      have hxx : x = x2 := hcleaninj hx hx2A hdx
      rw [hxx]
      exact hx20
    have hy0 : nFilesL y.2.2 ≤ 0 := by
      rw [← hx0]
      exact subdirsL_count x.1 x.2.2 y hy
    obtain ⟨y2, hy2A, hdy, hy20, hpar⟩ := (hchar (clean_path y.1)).mp hvy
    have hyy : y = y2 := hcleaninj hyA hy2A hdy
    subst hyy
    -- the parent of y lies inside the subtree of x (or is x itself), so its
    -- recursive count is 0; but the report requires a nonzero parent count
    have hparchoice := subdirsL_parent x.1 x.2.2 y hy
    have hxpath : x.1 = "." ∨ x.1 ∈ subPaths "." t := by
      rcases List.mem_cons.mp hx with h | h
      · rw [h]
        exact .inl rfl
      · exact .inr (List.mem_map_of_mem Prod.fst h)
    have hsubtree : ∀ p, p ∈ subPaths x.1 x.2.2 → p ∈ subPaths "." t := by
      intro p hpmem
      obtain ⟨z, hz, hz1⟩ := List.mem_map.mp hpmem
      rcases List.mem_cons.mp hx with h | h
      · rw [h] at hz
        rw [← hz1]
        exact List.mem_map_of_mem Prod.fst hz
      · rw [← hz1]
        exact List.mem_map_of_mem Prod.fst (subdirsL_closed "." t x h z hz)
    rcases hpar with hpp | ⟨z, hzA, hz1, hzne⟩
    · -- the parent cannot be the empty sentinel path
      rcases hparchoice with h | h
      · rcases hxpath with h2 | h2
        · rw [hpp, h2] at h
          exact absurd h (by decide)
        · rw [hpp] at h
          rw [← h] at h2
          exact hempty h2
      · rw [hpp] at h
        exact hempty (hsubtree "" h)
    · -- the recorded parent has recursive count 0, contradiction
      have hz0 : nFilesL z.2.2 = 0 := by
        rcases hparchoice with h | h
        · -- parent is x itself
          have hzx : z = x := by
            apply hfstinj hzA hx
            rw [hz1, h]
          rw [hzx]
          exact hx0
        · -- parent is a strict descendant of x
          obtain ⟨z0, hz0mem, hz01⟩ := List.mem_map.mp h
          have hz0A : z0 ∈ allDirs t := by
            rcases List.mem_cons.mp hx with h2 | h2
            · rw [h2] at hz0mem
              exact List.mem_cons_of_mem _ hz0mem
            · exact List.mem_cons_of_mem _ (subdirsL_closed "." t x h2 z0 hz0mem)
          have hzz : z = z0 := by
            apply hfstinj hzA hz0A
            rw [hz1, hz01]
          have hz0c : nFilesL z0.2.2 ≤ 0 := by
            rw [← hx0]
            exact subdirsL_count x.1 x.2.2 z0 hz0mem
          rw [hzz]
          omega
      exact hzne hz0
  · rw [hveq]
    unfold get_top_level_vacant_dirs
    exact List.sorted_insertionSort strLeP _

-- ==================== order-invariance machinery (C3) ====================

mutual
/-- Regular (non-skipped) files of one entry, recursively, in traversal order. -/
def filesE : Entry → List FileData
  | .file f => if skipName f.name then [] else [f]
  | .dir n es => if skipName n then [] else filesL es
  | .other _ => []
/-- Regular files of a subtree in traversal order. -/
def filesL : EntryList → List FileData
  | .nil => []
  | .cons e rest => filesE e ++ filesL rest
end

theorem nFilesL_eq_files (l : EntryList) : nFilesL l = (filesL l).length := by
  cases l with
  | nil => simp [nFilesL, filesL]
  | cons e rest =>
      cases e with
      | file f =>
          by_cases hs : skipName f.name = true <;>
            simp [nFilesL, nFilesE, filesL, filesE, hs, nFilesL_eq_files rest] <;> omega
      | other s => simp [nFilesL, nFilesE, filesL, filesE, nFilesL_eq_files rest]
      | dir nm es =>
          by_cases hs : skipName nm = true <;>
            simp [nFilesL, nFilesE, filesL, filesE, hs, nFilesL_eq_files rest,
              nFilesL_eq_files es]
  termination_by sizeOf l

theorem sumSizesL_eq_files (l : EntryList) :
    sumSizesL l = ((filesL l).map fun f => f.fstat.getD 0).sum := by
  cases l with
  | nil => simp [sumSizesL, filesL]
  | cons e rest =>
      cases e with
      | file f =>
          by_cases hs : skipName f.name = true <;>
            simp [sumSizesL, sumSizesE, filesL, filesE, hs, sumSizesL_eq_files rest]
      | other s => simp [sumSizesL, sumSizesE, filesL, filesE, sumSizesL_eq_files rest]
      | dir nm es =>
          by_cases hs : skipName nm = true <;>
            simp [sumSizesL, sumSizesE, filesL, filesE, hs, sumSizesL_eq_files rest,
              sumSizesL_eq_files es]
  termination_by sizeOf l

/-- Generic transfer of reorderings through a "harvest" of the tree: any
function on directory contents that is empty on `nil`, splits as an append
over `cons`, and respects reorderings of a subdirectory's contents, maps
`TPerm`-related trees to permutation-related lists. -/
theorem harvest_perm {α : Type} (hE : String → Entry → List α) (hL : String → EntryList → List α)
    (hnil : ∀ dp, hL dp .nil = [])
    (hcons : ∀ dp e rest, hL dp (.cons e rest) = hE dp e ++ hL dp rest)
    (hdir : ∀ dp nm es1 es2, TPerm es1 es2 → (∀ dq, (hL dq es1).Perm (hL dq es2)) →
      (hE dp (.dir nm es1)).Perm (hE dp (.dir nm es2))) :
    ∀ {l1 l2 : EntryList}, TPerm l1 l2 → ∀ dp, (hL dp l1).Perm (hL dp l2) := by
  intro l1 l2 hperm
  induction hperm with
  | nil => intro dp; exact .refl _
  | cons e hp ih =>
      intro dp
      rw [hcons, hcons]
      exact List.Perm.append_left _ (ih dp)
  | dirStep nm hpes hp ihes ih =>
      intro dp
      rw [hcons, hcons]
      exact (hdir dp nm _ _ hpes ihes).append (ih dp)
  | swap e1 e2 l =>
      intro dp
      rw [hcons, hcons, hcons, hcons]
      rw [← List.append_assoc, ← List.append_assoc]
      exact List.Perm.append_right _ List.perm_append_comm
  | trans h1 h2 ih1 ih2 =>
      intro dp
      exact (ih1 dp).trans (ih2 dp)

theorem files_perm {l1 l2 : EntryList} (h : TPerm l1 l2) : (filesL l1).Perm (filesL l2) := by
  refine harvest_perm (fun _ e => filesE e) (fun _ l => filesL l) (fun _ => rfl)
    (fun _ e rest => rfl) ?_ h "."
  intro dp nm es1 es2 _ ih
  by_cases hs : skipName nm = true
  · simp [filesE, hs]
  · simpa [filesE, hs] using ih "."

theorem nFilesL_perm {l1 l2 : EntryList} (h : TPerm l1 l2) : nFilesL l1 = nFilesL l2 := by
  rw [nFilesL_eq_files, nFilesL_eq_files]
  exact (files_perm h).length_eq

theorem sumSizesL_perm {l1 l2 : EntryList} (h : TPerm l1 l2) : sumSizesL l1 = sumSizesL l2 := by
  rw [sumSizesL_eq_files, sumSizesL_eq_files]
  exact ((files_perm h).map _).sum_eq

theorem nDirsL_perm {l1 l2 : EntryList} (h : TPerm l1 l2) : nDirsL l1 = nDirsL l2 := by
  induction h with
  | nil => rfl
  | cons e hp ih => simp [nDirsL, ih]
  | dirStep nm hpes hp ihes ih =>
      simp only [nDirsL, nDirsE]
      rw [ihes, ih]
  | swap e1 e2 l => simp [nDirsL]; omega
  | trans h1 h2 ih1 ih2 => exact ih1.trans ih2

theorem probesOkL_perm {l1 l2 : EntryList} (h : TPerm l1 l2) : probesOkL l1 = probesOkL l2 := by
  induction h with
  | nil => rfl
  | cons e hp ih => simp [probesOkL, ih]
  | dirStep nm hpes hp ihes ih =>
      simp only [probesOkL, probesOkE]
      rw [ihes, ih]
  | swap e1 e2 l =>
      simp only [probesOkL]
      rw [← Bool.and_assoc, Bool.and_comm (probesOkE e1) (probesOkE e2), Bool.and_assoc]
  | trans h1 h2 ih1 ih2 => exact ih1.trans ih2

theorem statted_perm {l1 l2 : EntryList} (h : TPerm l1 l2) (dp : String) :
    (stattedL dp l1).Perm (stattedL dp l2) := by
  refine harvest_perm stattedE stattedL (fun _ => rfl) (fun _ e rest => rfl) ?_ h dp
  intro dq nm es1 es2 _ ih
  by_cases hs : skipName nm = true
  · simp [stattedE, hs]
  · simpa [stattedE, hs] using ih (pathJoin dq nm)

theorem images_perm {l1 l2 : EntryList} (h : TPerm l1 l2) (dp : String) :
    (imagesL dp l1).Perm (imagesL dp l2) := by
  refine harvest_perm imagesE imagesL (fun _ => rfl) (fun _ e rest => rfl) ?_ h dp
  intro dq nm es1 es2 _ ih
  by_cases hs : skipName nm = true
  · simp [imagesE, hs]
  · simpa [imagesE, hs] using ih (pathJoin dq nm)

theorem texts_perm {l1 l2 : EntryList} (h : TPerm l1 l2) (dp : String) :
    (wordTextsL dp l1).Perm (wordTextsL dp l2) := by
  refine harvest_perm wordTextsE wordTextsL (fun _ => rfl) (fun _ e rest => rfl) ?_ h dp
  intro dq nm es1 es2 _ ih
  by_cases hs : skipName nm = true
  · simp [wordTextsE, hs]
  · simpa [wordTextsE, hs] using ih (pathJoin dq nm)

/-- Subdirectory records with their recursive file counts, the data the
vacancy resolver consumes. -/
def vacL (dp : String) (l : EntryList) : List (String × String × Nat) :=
  (subdirsL dp l).map fun x => (x.1, x.2.1, nFilesL x.2.2)

theorem vac_perm {l1 l2 : EntryList} (h : TPerm l1 l2) (dp : String) :
    (vacL dp l1).Perm (vacL dp l2) := by
  refine harvest_perm (fun dq e => (subdirsE dq e).map fun x => (x.1, x.2.1, nFilesL x.2.2))
    vacL (fun _ => rfl) ?_ ?_ h dp
  · intro dq e rest
    simp [vacL, subdirsL]
  · intro dq nm es1 es2 hpes ih
    by_cases hs : skipName nm = true
    · simp [subdirsE, hs]
    · simp only [subdirsE, hs, Bool.false_eq_true, if_false, List.map_cons]
      rw [nFilesL_perm hpes]
      exact List.Perm.cons _ (ih (pathJoin dq nm))

theorem wContribL_perm {l1 l2 : EntryList} (h : TPerm l1 l2) (dp : String) (w : String) :
    wContribL dp l1 w = wContribL dp l2 w := by
  unfold wContribL
  exact ((texts_perm h dp).map _).sum_eq

theorem firstMax_ub : ∀ (l : List (String × Nat)) (cur : String × Int) (x : String × Nat),
    x ∈ l → (x.2 : Int) ≤ (firstMax l cur).2 := by
  intro l
  induction l with
  | nil => intro cur x hx; cases hx
  | cons ps rest ih =>
      intro cur x hx
      obtain ⟨p, s⟩ := ps
      simp only [firstMax]
      rcases List.mem_cons.mp hx with hx | hx
      · subst hx
        have hge := firstMax_ge rest (if (s : Int) > cur.2 then (p, (s : Int)) else cur)
        by_cases hlt : (s : Int) > cur.2
        · simp only [hlt, if_pos] at hge ⊢
          exact hge
        · simp only [hlt, if_neg, not_false_iff] at hge ⊢
          have hcle : (s : Int) ≤ cur.2 := le_of_not_lt hlt
          exact le_trans hcle hge
      · exact ih _ x hx

theorem firstMax_perm {l1 l2 : List (String × Nat)} (hp : l1.Perm l2)
    (hnd : (l1.map Prod.snd).Nodup) :
    firstMax l1 ("", -1) = firstMax l2 ("", -1) := by
  cases l1 with
  | nil =>
      have h0 : l2 = [] := hp.symm.eq_nil
      rw [h0]
  | cons x rest =>
      have hx1 : x ∈ x :: rest := List.mem_cons_self x rest
      have hx2 : x ∈ l2 := hp.mem_iff.mp hx1
      -- both results come from elements of the respective lists
      have hr1 : ∃ a ∈ x :: rest, firstMax (x :: rest) ("", -1) = (a.1, (a.2 : Int)) := by
        rcases firstMax_mem (x :: rest) ("", -1) with hmm | h
        · exfalso
          have := firstMax_ub (x :: rest) ("", -1) x hx1
          rw [hmm] at this
          omega
        · exact h
      have hr2 : ∃ b ∈ l2, firstMax l2 ("", -1) = (b.1, (b.2 : Int)) := by
        rcases firstMax_mem l2 ("", -1) with hmm | h
        · exfalso
          have := firstMax_ub l2 ("", -1) x hx2
          rw [hmm] at this
          omega
        · exact h
      obtain ⟨a, ha, hra⟩ := hr1
      obtain ⟨b, hb, hrb⟩ := hr2
      have hb1 : b ∈ x :: rest := hp.mem_iff.mpr hb
      have ha2 : a ∈ l2 := hp.mem_iff.mp ha
      have h1 : (b.2 : Int) ≤ (a.2 : Int) := by
        have := firstMax_ub (x :: rest) ("", -1) b hb1
        rwa [hra] at this
      have h2 : (a.2 : Int) ≤ (b.2 : Int) := by
        have := firstMax_ub l2 ("", -1) a ha2
        rwa [hrb] at this
      have hsz : a.2 = b.2 := by omega
      have hab : a = b := List.inj_on_of_nodup_map hnd ha hb1 hsz
      rw [hra, hrb, hab]

/-- C1 (witness): the sample tree is well-formed with working probes, and
the vacancy list of its analysis is sorted lexicographically. -/
theorem claim_C1_witness :
    WfFS sampleTree ∧ probesOkL sampleTree = true ∧
    (sampleResult 1).vacant_dirs.Sorted strLeP :=
  ⟨by decide, by decide,
    (claim_C1 sampleTree 1 (sampleResult 1) (by decide) (by decide) (sample_eval2 1)).2.2⟩

/-- Vacancy reporting only depends on the two maps as finite functions:
permuted maps with duplicate-free keys produce the same sorted list. -/
theorem vacant_perm (pm1 pm2 : List (String × String)) (nfm1 nfm2 : List (String × Nat))
    (hpm : pm1.Perm pm2) (hnfm : nfm1.Perm nfm2)
    (hndp : (akeys pm1).Nodup) (hndn : (akeys nfm1).Nodup)
    (hroot : aget nfm1 "" = none) :
    get_top_level_vacant_dirs pm1 nfm1 = get_top_level_vacant_dirs pm2 nfm2 := by
  have hroot2 : aget nfm2 "" = none := by rw [← aget_perm hnfm hndn ""]; exact hroot
  have hm1 : aset nfm1 "" 1 = nfm1 ++ [("", 1)] := aset_fresh 1 hroot
  have hm2 : aset nfm2 "" 1 = nfm2 ++ [("", 1)] := aset_fresh 1 hroot2
  have hp12 : (aset nfm1 "" 1).Perm (aset nfm2 "" 1) := by
    rw [hm1, hm2]
    exact List.Perm.append_right _ hnfm
  have hnd12 : (akeys (aset nfm1 "" 1)).Nodup := by
    rw [hm1, akeys_append]
    refine List.Nodup.append hndn (by simp [akeys]) ?_
    intro x hx hy
    simp only [akeys, List.map_cons, List.map_nil, List.mem_singleton] at hy
    subst hy
    exact aget_eq_none_iff.mp hroot hx
  have hgm : ∀ k, aget (aset nfm1 "" 1) k = aget (aset nfm2 "" 1) k := aget_perm hp12 hnd12
  have hgp : ∀ k, aget pm1 k = aget pm2 k := aget_perm hpm hndp
  have hpred : (fun kv : String × Nat =>
      decide (kv.2 = 0) && decide (0 < agetD (aset nfm2 "" 1) (agetD pm2 kv.1 "") 0)) =
      fun kv : String × Nat =>
      decide (kv.2 = 0) && decide (0 < agetD (aset nfm1 "" 1) (agetD pm1 kv.1 "") 0) := by
    funext kv
    have e1 : agetD pm2 kv.1 "" = agetD pm1 kv.1 "" := by
      unfold agetD
      rw [hgp kv.1]
    have e2 : agetD (aset nfm2 "" 1) (agetD pm1 kv.1 "") 0 =
        agetD (aset nfm1 "" 1) (agetD pm1 kv.1 "") 0 := by
      unfold agetD
      rw [hgm ((aget pm1 kv.1).getD "")]
    rw [e1, e2]
  simp only [get_top_level_vacant_dirs]
  rw [hpred]
  apply insertionSort_eq_of_perm
  · exact List.Perm.map _ (List.Perm.filter _ hp12)
  · intro a _ b _ hab hba
    exact IsAntisymm.antisymm a b hab hba

theorem results_ext (a b : Results)
    (h1 : a.largest_file_path = b.largest_file_path)
    (h2 : a.largest_file_size = b.largest_file_size)
    (h3 : a.n_files = b.n_files) (h4 : a.n_dirs = b.n_dirs)
    (h5 : a.all_files_size = b.all_files_size)
    (h6 : a.most_common_words = b.most_common_words)
    (h7 : a.largest_images = b.largest_images)
    (h8 : a.vacant_dirs = b.vacant_dirs) : a = b := by
  cases a
  cases b
  simp_all

/-- C3: the analysis of an unmodified directory tree is deterministic up to
the order the filesystem enumerates directory contents: on a well-formed
tree with working probes whose statted files have pairwise distinct sizes
(the condition the spec flags for pinning down the first-seen largest file),
any reordering of directory contents (`TPerm`, the same filesystem read in a
different order — in particular the identity reordering, i.e. a literal
second run) produces an identical `Results` value for every `n`. -/
theorem claim_C3 (t1 t2 : EntryList) (n : Nat) (hperm : TPerm t1 t2)
    (hwf : WfFS t1) (hp : probesOkL t1 = true) (hsz : SizesNodup t1) :
    analyzeDir t1 n = analyzeDir t2 n := by
  have hp2 : probesOkL t2 = true := by rw [← probesOkL_perm hperm]; exact hp
  obtain ⟨r1, heq1, hnf1, hnd1, hsz1, hfm1, ⟨mcw1, hgm1, hfun1, hw1⟩, him1, hvac1⟩ :=
    analyzeDir_char t1 n hp
  obtain ⟨r2, heq2, hnf2, hnd2, hsz2, hfm2, ⟨mcw2, hgm2, hfun2, hw2⟩, him2, hvac2⟩ :=
    analyzeDir_char t2 n hp2
  rw [heq1, heq2]
  obtain ⟨hnodup1, hroot1, hempty1, hclean1, hstat1, himnd1⟩ := hwf
  -- statted files and the largest-file pair
  have hst : (stattedL "." t1).Perm (stattedL "." t2) := statted_perm hperm "."
  have hstat2 : ∀ ps ∈ stattedL "." t2, clean_path ps.1 = ps.1 := fun ps h =>
    hstat1 ps (hst.mem_iff.mpr h)
  have hpair : (r1.largest_file_path, r1.largest_file_size) =
      (r2.largest_file_path, r2.largest_file_size) := by
    rw [hfm1 hstat1, hfm2 hstat2, firstMax_perm hst hsz]
  -- word tables
  have hfun12 : ∀ w, agetD mcw1 w 0 = agetD mcw2 w 0 := fun w => by
    rw [hfun1 w, hfun2 w, wContribL_perm hperm "." w]
  have hpermw : mcw1.Perm mcw2 := entries_perm_of_fun_eq hgm1 hgm2 hfun12
  have hsortw : mcw1.insertionSort wordLE = mcw2.insertionSort wordLE :=
    insertionSort_eq_of_perm hpermw fun a _ b _ hab hba => IsAntisymm.antisymm a b hab hba
  -- image lists
  have himp : (imagesL "." t1).Perm (imagesL "." t2) := images_perm hperm "."
  have hanti : ∀ a ∈ imagesL "." t1, ∀ b ∈ imagesL "." t1,
      imageLE a b → imageLE b a → a = b := by
    intro a ha b hb hab hba
    have hpe : pixels a = pixels b := by
      rcases hab with h | ⟨h, _⟩ <;> rcases hba with h' | ⟨h', _⟩ <;> omega
    have hpa : strLeP a.path b.path := by
      rcases hab with h | ⟨h2, h3⟩
      · exfalso; omega
      · exact h3
    have hpb : strLeP b.path a.path := by
      rcases hba with h | ⟨h2, h3⟩
      · exfalso; omega
      · exact h3
    have hpath : a.path = b.path := IsAntisymm.antisymm _ _ hpa hpb
    exact List.inj_on_of_nodup_map himnd1 ha hb hpath
  have hsorti : (imagesL "." t1).insertionSort imageLE =
      (imagesL "." t2).insertionSort imageLE := insertionSort_eq_of_perm himp hanti
  -- vacancy maps
  have htailp : ((subdirsL "." t1).map fun x => (x.1, x.2.1)).Perm
      ((subdirsL "." t2).map fun x => (x.1, x.2.1)) := by
    have h := List.Perm.map (fun y : String × String × Nat => (y.1, y.2.1)) (vac_perm hperm ".")
    simp only [vacL, List.map_map, Function.comp] at h
    exact h
  have htailn : ((subdirsL "." t1).map fun x => (x.1, nFilesL x.2.2)).Perm
      ((subdirsL "." t2).map fun x => (x.1, nFilesL x.2.2)) := by
    have h := List.Perm.map (fun y : String × String × Nat => (y.1, y.2.2)) (vac_perm hperm ".")
    simp only [vacL, List.map_map, Function.comp] at h
    exact h
  have hsp : (subPaths "." t1).Perm (subPaths "." t2) := by
    have h := List.Perm.map (fun y : String × String => y.1) htailp
    simp only [List.map_map, Function.comp] at h
    exact h
  have hnodup2 : (subPaths "." t2).Nodup := hsp.nodup_iff.mp hnodup1
  have hroot2 : "." ∉ subPaths "." t2 := fun h => hroot1 (hsp.mem_iff.mpr h)
  have hpm : ((allDirs t1).map fun x => (x.1, x.2.1)).Perm
      ((allDirs t2).map fun x => (x.1, x.2.1)) := by
    simp only [allDirs, List.map_cons]
    exact List.Perm.cons _ htailp
  have hnfm : ((allDirs t1).map fun x => (x.1, nFilesL x.2.2)).Perm
      ((allDirs t2).map fun x => (x.1, nFilesL x.2.2)) := by
    simp only [allDirs, List.map_cons]
    rw [nFilesL_perm hperm]
    exact List.Perm.cons _ htailn
  have hkeyp : akeys ((allDirs t1).map fun x : String × String × EntryList => (x.1, x.2.1)) =
      (allDirs t1).map Prod.fst := by
    simp only [akeys, List.map_map]
    rfl
  have hkeyn : akeys ((allDirs t1).map fun x : String × String × EntryList =>
      (x.1, nFilesL x.2.2)) = (allDirs t1).map Prod.fst := by
    simp only [akeys, List.map_map]
    rfl
  have hndkeys : ((allDirs t1).map Prod.fst).Nodup := by
    rw [allDirs_fst]
    exact List.nodup_cons.mpr ⟨hroot1, hnodup1⟩
  have hndp : (akeys ((allDirs t1).map fun x : String × String × EntryList =>
      (x.1, x.2.1))).Nodup := by rw [hkeyp]; exact hndkeys
  have hndn : (akeys ((allDirs t1).map fun x : String × String × EntryList =>
      (x.1, nFilesL x.2.2))).Nodup := by rw [hkeyn]; exact hndkeys
  have hnone : aget ((allDirs t1).map fun x : String × String × EntryList =>
      (x.1, nFilesL x.2.2)) "" = none := by
    rw [aget_eq_none_iff, hkeyn, allDirs_fst]
    intro h
    rcases List.mem_cons.mp h with h | h
    · exact absurd h.symm (by decide)
    · exact hempty1 h
  have hvacL : r1.vacant_dirs = r2.vacant_dirs := by
    rw [hvac1 hnodup1 hroot1, hvac2 hnodup2 hroot2]
    exact vacant_perm _ _ _ _ hpm hnfm hndp hndn hnone
  exact congrArg Except.ok (results_ext r1 r2
    (congrArg Prod.fst hpair) (congrArg Prod.snd hpair)
    (by rw [hnf1, hnf2, nFilesL_perm hperm])
    (by rw [hnd1, hnd2, nDirsL_perm hperm])
    (by rw [hsz1, hsz2, sumSizesL_perm hperm])
    (by rw [hw1, hw2, hsortw])
    (by rw [him1, him2, hsorti])
    hvacL)

/-- A two-entry tree: a three-byte text file and an empty subdirectory. -/
def c3t1 : EntryList :=
  entriesOf
    [ .file { name := "b.txt", fstat := some 3, content := "abc".data, probe := probeFail }
    , .dir "sub" .nil ]

/-- The same tree enumerated in the opposite order. -/
def c3t2 : EntryList :=
  entriesOf
    [ .dir "sub" .nil
    , .file { name := "b.txt", fstat := some 3, content := "abc".data, probe := probeFail } ]

/-- C3 (witness): swapping the two entries of the concrete tree is a
reordering satisfying all hypotheses, and the analysis is unchanged. -/
theorem claim_C3_witness :
    TPerm c3t1 c3t2 ∧ WfFS c3t1 ∧ probesOkL c3t1 = true ∧ SizesNodup c3t1 ∧
    analyzeDir c3t1 2 = analyzeDir c3t2 2 :=
  ⟨TPerm.swap _ _ _, by decide, by decide, by decide,
    claim_C3 c3t1 c3t2 2 (TPerm.swap _ _ _) (by decide) (by decide) (by decide)⟩
